import Mathlib

/-!
Verification of the SourcetrailDB reader/analyzer tools.

This file gives a shallow embedding, in Lean 4, of the parts of the
repository that the verified properties speak about:

* the serialized-name codec of `src/core/src/SourcetrailDBReader.cpp`
  (`parseSerializedNameHierarchy` and the `encodeSerialized` lambda of
  `findSymbolsByQualifiedName`);
* the `open`/`close`/`isOpen` state machine of `SourcetrailDBReader`;
* the line-offset table and range slicer of
  `src/examples/code_chunker/src/main.cpp` (`buildLineOffsets`,
  `sliceByRange`);
* the worker-count computation and the per-test-method forward BFS of
  `src/examples/test_indexer/src/main.cpp`;
* the reverse-reachability test-impact BFS of
  `src/examples/dependency_analyzer/src/main.cpp`.

C++ `std::string` values are embedded as `List Char`; C++ `int` as `Int`;
`size_t` values that are provably non-negative as `Nat`.  Iteration that
the C++ performs with `while` loops is embedded with an explicit
fuel/measure argument; where a property needs the loop to run to
completion, a lemma shows the chosen fuel suffices.
-/

set_option maxHeartbeats 1000000

namespace Stdb

/-- Edge kinds, from `EdgeKind.h` (mirrored by the switch in
`getEdgeKindName` of the dependency analyzer). -/
inductive EdgeKind where
  | MEMBER
  | TYPE_USAGE
  | USAGE
  | CALL
  | INHERITANCE
  | OVERRIDE
  | TYPE_ARGUMENT
  | TEMPLATE_SPECIALIZATION
  | INCLUDE
  | IMPORT
  | MACRO_USAGE
  | ANNOTATION_USAGE
deriving DecidableEq, Repr

/-- Symbol kinds, from `SymbolKind.h` (mirrored by the switch in
`getSymbolKindName` of the dependency analyzer). -/
inductive SymbolKind where
  | TYPE
  | BUILTIN_TYPE
  | MODULE
  | NAMESPACE
  | PACKAGE
  | STRUCT
  | CLASS
  | INTERFACE
  | ANNOTATION
  | GLOBAL_VARIABLE
  | FIELD
  | FUNCTION
  | METHOD
  | ENUM
  | ENUM_CONSTANT
  | TYPEDEF
  | TYPE_PARAMETER
  | MACRO
  | UNION
deriving DecidableEq, Repr

/-- One element of a name hierarchy (`NameElement` of `NameHierarchy.h`).
The C++ fields `prefix` and `postfix` are called `prefixStr` and
`postfixStr` here. -/
structure NameElement where
  name : List Char
  prefixStr : List Char
  postfixStr : List Char
deriving DecidableEq, Repr

/-- A decoded hierarchical name (`NameHierarchy` of `NameHierarchy.h`). -/
structure NameHierarchy where
  nameDelimiter : List Char
  nameElements : List NameElement
deriving DecidableEq, Repr

/-- META separator of the serialized-name encoding ("\tm"). -/
def META_DELIMITER : List Char := ['\t', 'm']

/-- NAME separator of the serialized-name encoding ("\tn"). -/
def NAME_DELIMITER : List Char := ['\t', 'n']

/-- PART separator of the serialized-name encoding ("\ts"). -/
def PART_DELIMITER : List Char := ['\t', 's']

/-- SIGNATURE separator of the serialized-name encoding ("\tp"). -/
def SIGNATURE_DELIMITER : List Char := ['\t', 'p']

/-- Whether `s` starts with `pat` (the comparison `std::string::find`
performs at one candidate position). -/
def listStartsWith : List Char → List Char → Bool
  | _, [] => true
  | [], _ :: _ => false
  | c :: cs, p :: ps => if c = p then listStartsWith cs ps else false

/-- Embedding of `std::string::find(pat)` combined with the two
`substr` calls around the found position: `splitFirst pat s` returns
`some (before, after)` where `before` is the part of `s` before the
first occurrence of `pat` and `after` the part after it, or `none` when
`pat` does not occur in `s` (`find` returned `npos`). -/
def splitFirst (pat : List Char) : List Char → Option (List Char × List Char)
  | [] => if listStartsWith [] pat then some ([], []) else none
  | c :: cs =>
    if listStartsWith (c :: cs) pat then some ([], (c :: cs).drop pat.length)
    else (splitFirst pat cs).map (fun r => (c :: r.1, r.2))

/-- The element-parsing `while` loop of `parseSerializedNameHierarchy`
(`SourcetrailDBReader.cpp`).  Each iteration splits off the element name
at `PART_DELIMITER`, the prefix at `SIGNATURE_DELIMITER`, and the
postfix at `NAME_DELIMITER` (the postfix extending to the end of the
input when `NAME_DELIMITER` is absent), and breaks on a malformed tail.
The `fuel` argument bounds the number of iterations; each iteration
consumes at least the four characters of the two mandatory separators,
so fuel equal to the input length is always enough. -/
def parseNameElementsAux : Nat → List Char → List NameElement
  | 0, _ => []
  | fuel + 1, s =>
    match splitFirst PART_DELIMITER s with
    | none => []
    | some (nm, s1) =>
      match splitFirst SIGNATURE_DELIMITER s1 with
      | none => []
      | some (pre, s2) =>
        match splitFirst NAME_DELIMITER s2 with
        | none => [⟨nm, pre, s2⟩]
        | some (post, s3) => ⟨nm, pre, post⟩ :: parseNameElementsAux fuel s3

/-- The element-parsing loop run with sufficient fuel. -/
def parseNameElements (s : List Char) : List NameElement :=
  parseNameElementsAux s.length s

/-- Embedding of the static `parseSerializedNameHierarchy` of
`SourcetrailDBReader.cpp`: locate the first `META_DELIMITER` to split
off the hierarchy delimiter (falling back to delimiter `"::"` and the
whole input as a single element when it is absent and the input is
non-empty), parse the elements, and if nothing parsed keep the whole
input as a single element. -/
def parseSerializedNameHierarchy (serializedName : List Char) : NameHierarchy :=
  match splitFirst META_DELIMITER serializedName with
  | none =>
    { nameDelimiter := [':', ':']
      nameElements := if serializedName.isEmpty then [] else [⟨serializedName, [], []⟩] }
  | some (delim, rest) =>
    let elems := parseNameElements rest
    if elems.isEmpty && !serializedName.isEmpty then
      { nameDelimiter := delim, nameElements := [⟨serializedName, [], []⟩] }
    else
      { nameDelimiter := delim, nameElements := elems }

/-- The element-joining loop of the `encodeSerialized` lambda in
`SourcetrailDBReader::findSymbolsByQualifiedName`: each element name is
followed by `PART_DELIMITER` and `SIGNATURE_DELIMITER` (empty prefix and
postfix), and `NAME_DELIMITER` is appended between consecutive
elements. -/
def encodeSerializedBody : List (List Char) → List Char
  | [] => []
  | [e] => e ++ PART_DELIMITER ++ SIGNATURE_DELIMITER
  | e :: e2 :: rest =>
    e ++ PART_DELIMITER ++ SIGNATURE_DELIMITER ++ NAME_DELIMITER ++
      encodeSerializedBody (e2 :: rest)

/-- Embedding of the `encodeSerialized` lambda: delimiter, then
`META_DELIMITER`, then the encoded elements. -/
def encodeSerialized (elems : List (List Char)) (delim : List Char) : List Char :=
  delim ++ META_DELIMITER ++ encodeSerializedBody elems

/-- Join a list of names with a delimiter, as the FQN-building loops do
(`toFqn` of the test indexer, `buildFqnFromSymbol` of the dependency
analyzer): the delimiter is inserted before every element but the
first. -/
def joinWithDelim (delim : List Char) : List (List Char) → List Char
  | [] => []
  | [n] => n
  | n :: n2 :: rest => n ++ delim ++ joinWithDelim delim (n2 :: rest)

/-- Embedding of `toFqn` (test indexer) and `buildFqnFromSymbol`
(dependency analyzer): the delimiter-joined element names. -/
def toFqn (nh : NameHierarchy) : List Char :=
  joinWithDelim nh.nameDelimiter (nh.nameElements.map (·.name))

/-- The scanning loop of `buildLineOffsets` (code chunker): the offsets
one past each newline character, scanning from position `i`. -/
def lineBreakOffsets : List Char → Nat → List Nat
  | [], _ => []
  | c :: rest, i =>
    if c = '\n' then (i + 1) :: lineBreakOffsets rest (i + 1)
    else lineBreakOffsets rest (i + 1)

/-- Embedding of `buildLineOffsets` (code chunker): offset `0` for line
1, one entry per newline, and a sentinel equal to the text length. -/
def buildLineOffsets (text : List Char) : List Nat :=
  (0 :: lineBreakOffsets text 0) ++ [text.length]

/-- The raw (unclamped) start offset of `sliceByRange`:
`lineOffs[startLine-1] + (startCol > 0 ? startCol-1 : 0)`. -/
def sliceStartRaw (lineOffs : List Nat) (startLine startCol : Int) : Nat :=
  lineOffs.getD (startLine.toNat - 1) 0 +
    (if startCol > 0 then startCol.toNat - 1 else 0)

/-- The raw (unclamped) end offset of `sliceByRange`:
`endCol > 0 ? lineOffs[endLine-1] + endCol : lineOffs[endLine]`. -/
def sliceEndRaw (lineOffs : List Nat) (endLine endCol : Int) : Nat :=
  if endCol > 0 then lineOffs.getD (endLine.toNat - 1) 0 + endCol.toNat
  else lineOffs.getD endLine.toNat 0

/-- The clamp `if (start > text.size()) start = text.size()` applied to
an offset. -/
def clampStart (len start0 : Nat) : Nat :=
  if start0 > len then len else start0

/-- The end-offset clamp of `sliceByRange`: clamp to the text length,
then `if (end < start) end = start`. -/
def clampEnd (len start1 end0 : Nat) : Nat :=
  if (if end0 > len then len else end0) < start1 then start1
  else (if end0 > len then len else end0)

/-- Embedding of `sliceByRange` (code chunker): validate the 1-based
line numbers against the offset table, convert the inclusive
`(line, col)` coordinates to a byte range, clamp both ends to the text
length, force `end ≥ start`, and take the substring.  The local
variables `start`/`end` of the C++ are split into the helper functions
`sliceStartRaw`, `sliceEndRaw`, `clampStart` and `clampEnd`. -/
def sliceByRange (text : List Char) (lineOffs : List Nat)
    (startLine startCol endLine endCol : Int) : List Char :=
  if startLine ≤ 0 ∨ endLine ≤ 0 then []
  else if startLine.toNat ≥ lineOffs.length ∨ endLine.toNat ≥ lineOffs.length then []
  else
    (text.drop (clampStart text.length (sliceStartRaw lineOffs startLine startCol))).take
      (clampEnd text.length (clampStart text.length (sliceStartRaw lineOffs startLine startCol))
          (sliceEndRaw lineOffs endLine endCol) -
        clampStart text.length (sliceStartRaw lineOffs startLine startCol))

/-- Formalisation of the byte-range formula exactly as the specification
states it (claim C3): `start = line_offsets[l1-1] + (c1>0 ? c1-1 : 0)`;
`end = (c2>0) ? line_offsets[l2-1] + c2 : line_offsets[l2]`; both
clamped to the text length and `end` forced `≥ start`.  To be compared
against `sliceByRange`; unlike it, this formula has no validity
guards. -/
def sliceSpecC3 (text : List Char) (lineOffs : List Nat)
    (l1 c1 l2 c2 : Int) : List Char :=
  (text.drop (clampStart text.length (sliceStartRaw lineOffs l1 c1))).take
    (clampEnd text.length (clampStart text.length (sliceStartRaw lineOffs l1 c1))
        (sliceEndRaw lineOffs l2 c2) -
      clampStart text.length (sliceStartRaw lineOffs l1 c1))

/-- Embedding of the worker-count computation of the test indexer
(identical at both of its occurrences):
`hw = std::max(1u, std::thread::hardware_concurrency())` followed by
`numThreads = hw ? hw : 4u`. -/
def numThreads (hardwareConcurrency : Nat) : Nat :=
  let hw := max 1 hardwareConcurrency
  if hw ≠ 0 then hw else 4

/-- Modelled from the spec: the `DatabaseStorage` handle produced by
`DatabaseStorage::openDatabase` (its source is not part of this
repository snapshot).  Only the stored schema version is relevant to
the open-time compatibility check. -/
structure DatabaseStorage where
  storedVersion : Int
deriving DecidableEq, Repr

/-- Modelled from the spec: the supported database schema version
("Limited to database schema version 25", READER_README). -/
def getSupportedDatabaseVersion : Int := 25

/-- Modelled from the spec: `DatabaseStorage::isCompatible` verifies the
stored schema version against the known supported version. -/
def isCompatible (s : DatabaseStorage) : Bool :=
  s.storedVersion = getSupportedDatabaseVersion

/-- The reader's state: the held storage handle (`m_databaseStorage`,
null when absent) and the last error string. -/
structure SourcetrailDBReader where
  m_databaseStorage : Option DatabaseStorage
  m_lastError : List Char
deriving DecidableEq, Repr

/-- The error message `open` sets when `openDatabase` returns null. -/
def openFailMsg : List Char := String.toList "Failed to open database"

/-- The error message `open` sets on an incompatible schema version. -/
def versionErrorMsg : List Char :=
  String.toList "Database version is not compatible with this SourcetrailDB version"

/-- Embedding of `SourcetrailDBReader::open`.  The result of
`DatabaseStorage::openDatabase(path)` is passed in as `openResult`
(`none` embeds a null handle).  The member is assigned first; the
compatibility check happens afterwards and, on failure, only sets the
error and returns `false`. -/
def openReader (openResult : Option DatabaseStorage)
    (_ : SourcetrailDBReader) : SourcetrailDBReader × Bool :=
  let r1 : SourcetrailDBReader := { m_databaseStorage := openResult, m_lastError := [] }
  match openResult with
  | none => ({ r1 with m_lastError := openFailMsg }, false)
  | some st =>
    if !isCompatible st then ({ r1 with m_lastError := versionErrorMsg }, false)
    else (r1, true)

/-- Embedding of `SourcetrailDBReader::close`: reset the handle and
clear the error. -/
def closeReader (_ : SourcetrailDBReader) : SourcetrailDBReader × Bool :=
  ({ m_databaseStorage := none, m_lastError := [] }, true)

/-- Embedding of `SourcetrailDBReader::isOpen`: whether the storage
handle is non-null. -/
def isOpen (r : SourcetrailDBReader) : Bool :=
  r.m_databaseStorage.isSome

/-- A compact edge row (`SourcetrailDBReader::EdgeBrief`): source id,
target id and edge kind. -/
structure EdgeBrief where
  sourceSymbolId : Int
  targetSymbolId : Int
  edgeKind : EdgeKind
deriving DecidableEq, Repr

/-- The `maxId` computation of the test indexer: the maximum of 0, all
edge endpoints, and all (brief) symbol ids. -/
def maxIdOf (edges : List EdgeBrief) (symbolIds : List Int) : Int :=
  symbolIds.foldl (fun m i => max m i)
    (edges.foldl (fun m e => max (max m e.sourceSymbolId) e.targetSymbolId) 0)

/-- The adjacency lookup of the test indexer: in-range sources map to
their outgoing `(target, kind)` pairs in edge order (the C++ builds
`adjacency[src]` by appending each in-range edge to its source's
vector); out-of-range ids give the empty list, as the guarded
`(cur >= 0 && cur <= maxId) ? adjacency[cur] : empty` lookup does. -/
def adjacencyOf (edges : List EdgeBrief) (maxId : Int) (cur : Int) :
    List (Int × EdgeKind) :=
  if 0 ≤ cur ∧ cur ≤ maxId then
    (edges.filter (fun e => e.sourceSymbolId = cur)).map
      (fun e => (e.targetSymbolId, e.edgeKind))
  else []

/-- State of the per-test-method BFS of the test indexer: the visited
set, the FIFO queue, and the `(targetSymbolId, testMethodId)` pairs
recorded so far (batching only groups inserts into the shared set and
does not change which pairs it ends up holding, so the pairs are
accumulated directly). -/
structure BfsState where
  visited : List Int
  queue : List Int
  pairs : List (Int × Int)
deriving DecidableEq, Repr

/-- One iteration of the inner edge loop of the per-method BFS: skip
MEMBER edges, skip zero targets, and otherwise visit-and-enqueue a not
yet visited target, recording the pair `(target, testMethodId)`. -/
def processRef (testMethodId : Int) (st : BfsState) (ref : Int × EdgeKind) :
    BfsState :=
  if ref.2 = EdgeKind.MEMBER then st
  else if ref.1 = 0 then st
  else if ref.1 ∈ st.visited then st
  else
    { visited := st.visited ++ [ref.1]
      queue := st.queue ++ [ref.1]
      pairs := st.pairs ++ [(ref.1, testMethodId)] }

/-- The `while(!q.empty())` loop of the per-method BFS, with explicit
fuel bounding the number of iterations.  `bfsMeasure` strictly
decreases at every iteration, so fuel equal to the initial measure
runs the loop to completion (`bfsLoop_queue_empty` below). -/
def bfsLoop (edges : List EdgeBrief) (maxId : Int) (testMethodId : Int) :
    Nat → BfsState → BfsState
  | 0, st => st
  | fuel + 1, st =>
    match st.queue with
    | [] => st
    | cur :: rest =>
      bfsLoop edges maxId testMethodId fuel
        ((adjacencyOf edges maxId cur).foldl (processRef testMethodId)
          { st with queue := rest })

/-- Decreasing measure for `bfsLoop`: the number of distinct edge
targets not yet visited, plus the queue length.  Every loop iteration
strictly decreases it: a pop shortens the queue, and every enqueue is
paired with the fresh visit of an edge target. -/
def bfsMeasure (edges : List EdgeBrief) (st : BfsState) : Nat :=
  ((edges.map (·.targetSymbolId)).toFinset \ st.visited.toFinset).card +
    st.queue.length

/-- The initial state of the per-method BFS: visited and queue hold the
test method id and no pair is recorded. -/
def bfsInit (testMethodId : Int) : BfsState :=
  ⟨[testMethodId], [testMethodId], []⟩

/-- The per-method BFS of the test indexer, run to completion. -/
def mappingsForMethod (edges : List EdgeBrief) (maxId : Int)
    (testMethodId : Int) : List (Int × Int) :=
  (bfsLoop edges maxId testMethodId (bfsMeasure edges (bfsInit testMethodId))
    (bfsInit testMethodId)).pairs

/-- The final in-memory mapping set of the test indexer: the union over
all test methods of the per-method pairs.  The shared `std::set` is
modelled by list membership; worker interleaving and batch flushing
only affect insertion order, never membership. -/
def mappingSetOf (edges : List EdgeBrief) (maxId : Int)
    (testMethodIds : List Int) : List (Int × Int) :=
  (testMethodIds.map (mappingsForMethod edges maxId)).flatten

/-- Reachability from `m` by a non-empty path of outgoing edges none of
which has kind MEMBER — the path notion used verbatim by claim C1,
which constrains only the endpoint (not intermediate nodes) to be
non-zero. -/
inductive ReachesNonMember (adj : Int → List (Int × EdgeKind)) (m : Int) : Int → Prop
  | single (t : Int) (k : EdgeKind) :
      (t, k) ∈ adj m → k ≠ EdgeKind.MEMBER → ReachesNonMember adj m t
  | tail (v t : Int) (k : EdgeKind) : ReachesNonMember adj m v →
      (t, k) ∈ adj v → k ≠ EdgeKind.MEMBER → ReachesNonMember adj m t

/-- Reachability from `m` by a non-empty path of outgoing non-MEMBER
edges all of whose edge targets are non-zero.  This is the corrected
path notion: the BFS skips zero targets, so nodes reachable only
through node 0 are never visited. -/
inductive ReachesNonMemberNZ (adj : Int → List (Int × EdgeKind)) (m : Int) : Int → Prop
  | single (t : Int) (k : EdgeKind) :
      (t, k) ∈ adj m → k ≠ EdgeKind.MEMBER → t ≠ 0 → ReachesNonMemberNZ adj m t
  | tail (v t : Int) (k : EdgeKind) : ReachesNonMemberNZ adj m v →
      (t, k) ∈ adj v → k ≠ EdgeKind.MEMBER → t ≠ 0 → ReachesNonMemberNZ adj m t

/-- A full symbol row as the dependency analyzer sees it
(`SourcetrailDBReader::Symbol`): id, decoded name hierarchy, and symbol
kind.  The definition kind plays no role in the traversal and is
omitted. -/
structure Symbol where
  id : Int
  nameHierarchy : NameHierarchy
  symbolKind : SymbolKind
deriving DecidableEq, Repr

/-- The impact analyzer's in-memory inputs after graph building: the
full symbol list (`allSymbols`), the compact edge list (`briefEdges`),
and the configured exclude set and test namespace. -/
structure ImpactEnv where
  symbols : List Symbol
  edges : List EdgeBrief
  excludeSymbols : List (List Char)
  testNamespace : List Char
deriving DecidableEq, Repr

/-- The `maxId` computation of the impact analyzer (edge endpoints then
symbol ids, starting from 0). -/
def impactMaxId (env : ImpactEnv) : Int :=
  env.symbols.foldl (fun m s => max m s.id)
    (env.edges.foldl (fun m e => max (max m e.sourceSymbolId) e.targetSymbolId) 0)

/-- Embedding of the `getSymById` lambda: the dense `symbolById` table
(later writes win) read under the range guard; entries whose id is 0
(the default) signal a missing symbol. -/
def getSymById (env : ImpactEnv) (id : Int) : Option Symbol :=
  if 0 ≤ id ∧ id ≤ impactMaxId env then
    match (env.symbols.filter (fun s => s.id = id)).getLast? with
    | some s => if s.id ≠ 0 then some s else none
    | none => none
  else none

/-- Embedding of `fqnById`: the delimiter-joined name of the symbol
stored at this id (defaulting to the empty string). -/
def fqnById (env : ImpactEnv) (id : Int) : List Char :=
  if 0 ≤ id ∧ id ≤ impactMaxId env then
    match (env.symbols.filter (fun s => s.id = id)).getLast? with
    | some s => toFqn s.nameHierarchy
    | none => []
  else []

/-- Embedding of the `fqnToIds` index: the ids of all in-range symbols
whose FQN is the (non-empty) key, in symbol order. -/
def fqnToIds (env : ImpactEnv) (fqn : List Char) : List Int :=
  if fqn = [] then []
  else
    (env.symbols.filter (fun s =>
      0 ≤ s.id ∧ s.id ≤ impactMaxId env ∧ toFqn s.nameHierarchy = fqn)).map (·.id)

/-- Embedding of the guarded `incomingAdj` lookup: the `(source, kind)`
pairs of the edges into a node, in edge order. -/
def incomingAdjOf (env : ImpactEnv) (tgt : Int) : List (Int × EdgeKind) :=
  if 0 ≤ tgt ∧ tgt ≤ impactMaxId env then
    (env.edges.filter (fun e => e.targetSymbolId = tgt)).map
      (fun e => (e.sourceSymbolId, e.edgeKind))
  else []

/-- Embedding of the guarded `outgoingAdj` lookup: the `(target, kind)`
pairs of the edges out of a node, in edge order. -/
def outgoingAdjOf (env : ImpactEnv) (src : Int) : List (Int × EdgeKind) :=
  if 0 ≤ src ∧ src ≤ impactMaxId env then
    (env.edges.filter (fun e => e.sourceSymbolId = src)).map
      (fun e => (e.targetSymbolId, e.edgeKind))
  else []

/-- Embedding of `isTestClassName` (impact analyzer) and
`hasTestSuffix` (test indexer): the name ends in "Test" or "Tests". -/
def isTestClassName (n : List Char) : Bool :=
  (n.length ≥ 4 ∧ n.drop (n.length - 4) = ['T', 'e', 's', 't']) ∨
  (n.length ≥ 5 ∧ n.drop (n.length - 5) = ['T', 'e', 's', 't', 's'])

/-- Embedding of the `inNamespace` lambda: some element other than the
last equals the test namespace (and there are at least two
elements). -/
def inNamespace (testNamespace : List Char) (sym : Symbol) : Bool :=
  if sym.nameHierarchy.nameElements.length > 1 then
    sym.nameHierarchy.nameElements.dropLast.any (fun e => e.name = testNamespace)
  else false

/-- Embedding of the exclude check performed on each dequeued node:
ignored when (the FQN is non-empty and some element name is excluded)
or the FQN itself is excluded, or else when the last element name is
excluded. -/
def isIgnoredSymbol (excludeSymbols : List (List Char)) (sym : Symbol) : Bool :=
  if (toFqn sym.nameHierarchy ≠ [] ∧
        sym.nameHierarchy.nameElements.any
          (fun e => decide (e.name ∈ excludeSymbols))) ∨
      toFqn sym.nameHierarchy ∈ excludeSymbols then true
  else
    match sym.nameHierarchy.nameElements.getLast? with
    | some e => decide (e.name ∈ excludeSymbols)
    | none => false

/-- The exclude check as guarded in the loop: only applied when the
exclude set is non-empty. -/
def isIgnoredCheck (env : ImpactEnv) (sym : Symbol) : Bool :=
  !env.excludeSymbols.isEmpty && isIgnoredSymbol env.excludeSymbols sym

/-- Whether the symbol stored at an id is excluded (ids that resolve to
no symbol are not excluded). -/
def isIgnoredId (env : ImpactEnv) (id : Int) : Bool :=
  match getSymById env id with
  | some s => isIgnoredSymbol env.excludeSymbols s
  | none => false

/-- A frame of the impact-analyzer BFS queue (`QueueItem`): symbol id,
depth, index of the parent frame (-1 for a seed), and the mode.  The
C++ `modeKind` int (-1 for "any", else a `SymbolKind` value) is
embedded as an `Option SymbolKind` with `none` for "any". -/
structure QueueItem where
  symbolId : Int
  depth : Int
  parentIndex : Int
  modeKind : Option SymbolKind
deriving DecidableEq, Repr

/-- The state of the impact-analyzer BFS.  `queue`, `head`, `visited`,
`foundTestSymbols` and the two dedup sets mirror the C++ locals.
`hits` records, for each first detection of a test class, the
reconstructed path the C++ prints (instrumentation of the observable
output); `trace` records one `(mode, kind)` entry per edge that passes
the mode filter and reaches the visited-insert (the "instrumented run"
of testable property 6). -/
structure ImpactState where
  queue : List QueueItem
  head : Nat
  visited : List (Int × Option SymbolKind)
  foundTestSymbols : List (Int × List Char)
  foundTestSymbolsSet : List Int
  foundTestFqnsSet : List (List Char)
  hits : List (Int × List Char × List Int)
  trace : List (Option SymbolKind × EdgeKind)
deriving DecidableEq, Repr

/-- The parent-pointer walk of the `buildPathChain` lambda, before the
final reverse.  Fuel bounds the walk; parent indices built by the
algorithm strictly decrease, so `queue.length + 1` steps always
suffice.  An out-of-range index stops the walk (the C++ never produces
one). -/
def buildPathChainAux (queue : List QueueItem) : Nat → Int → List Int
  | 0, _ => []
  | fuel + 1, idx =>
    if 0 ≤ idx then
      match queue[idx.toNat]? with
      | some item => item.symbolId :: buildPathChainAux queue fuel item.parentIndex
      | none => []
    else []

/-- Embedding of `buildPathChain`: the symbol ids from a seed down to
the frame at `idx`. -/
def buildPathChain (queue : List QueueItem) (idx : Int) : List Int :=
  (buildPathChainAux queue (queue.length + 1) idx).reverse

/-- Embedding of the `ensureAddTestClass` lambda: both dedup sets are
inserted into unconditionally; only when both insertions were fresh is
the test class recorded, with its reconstructed path (the parent chain
of the current frame, the extra path ids of a method-to-class
promotion, and the class id if not already last). -/
def ensureAddTestClass (st : ImpactState) (currentIndex : Int) (classId : Int)
    (fqn : List Char) (extraPathIds : List Int) : ImpactState :=
  if classId ≤ 0 then st
  else if classId ∉ st.foundTestSymbolsSet ∧ fqn ∉ st.foundTestFqnsSet then
    { st with
      foundTestSymbolsSet := st.foundTestSymbolsSet ++ [classId]
      foundTestFqnsSet := st.foundTestFqnsSet ++ [fqn]
      foundTestSymbols := st.foundTestSymbols ++ [(classId, fqn)]
      hits := st.hits ++ [(classId, fqn,
        if buildPathChain st.queue currentIndex ++ extraPathIds = [] ∨
            (buildPathChain st.queue currentIndex ++ extraPathIds).getLast? ≠
              some classId then
          buildPathChain st.queue currentIndex ++ extraPathIds ++ [classId]
        else buildPathChain st.queue currentIndex ++ extraPathIds)] }
  else
    { st with
      foundTestSymbolsSet := if classId ∈ st.foundTestSymbolsSet then
          st.foundTestSymbolsSet
        else st.foundTestSymbolsSet ++ [classId]
      foundTestFqnsSet := if fqn ∈ st.foundTestFqnsSet then st.foundTestFqnsSet
        else st.foundTestFqnsSet ++ [fqn] }

/-- The parent FQN built in the method-promotion branch: all element
names but the last, delimiter-joined. -/
def parentFqnOf (sym : Symbol) : List Char :=
  joinWithDelim sym.nameHierarchy.nameDelimiter
    (sym.nameHierarchy.nameElements.dropLast.map (·.name))

/-- The body of the `for (int pid : it->second)` loop of the
method-promotion branch: classes and structs found under the parent FQN
are recorded through `ensureAddTestClass`. -/
def promoteClassFold (env : ImpactEnv) (currentIndex : Int) (pfqn : List Char)
    (acc : ImpactState) (pid : Int) : ImpactState :=
  match getSymById env pid with
  | some ps =>
    if ps.symbolKind = SymbolKind.CLASS ∨ ps.symbolKind = SymbolKind.STRUCT then
      ensureAddTestClass acc currentIndex ps.id pfqn [ps.id]
    else acc
  | none => acc

/-- The detection block of the impact-analyzer loop body (run on a
non-pruned dequeued symbol).  Returns the updated state and `true`
exactly when the C++ `continue` in the already-indexed-parent branch
fires, which skips expansion for this node. -/
def detectStep (env : ImpactEnv) (st : ImpactState) (currentIndex : Int)
    (sym : Symbol) (fqnSym : List Char) : ImpactState × Bool :=
  if inNamespace env.testNamespace sym then
    match sym.nameHierarchy.nameElements.getLast? with
    | none => (st, false)
    | some lastElem =>
      if (sym.symbolKind = SymbolKind.CLASS ∨ sym.symbolKind = SymbolKind.STRUCT) ∧
          isTestClassName lastElem.name then
        (ensureAddTestClass st currentIndex sym.id fqnSym [], false)
      else if sym.symbolKind = SymbolKind.METHOD ∧
          sym.nameHierarchy.nameElements.length ≥ 2 then
        if isTestClassName
            ((sym.nameHierarchy.nameElements.getD
              (sym.nameHierarchy.nameElements.length - 2) ⟨[], [], []⟩).name) then
          if parentFqnOf sym ∈ st.foundTestFqnsSet then (st, true)
          else
            ((fqnToIds env (parentFqnOf sym)).foldl
              (promoteClassFold env currentIndex (parentFqnOf sym)) st, false)
        else (st, false)
      else (st, false)
  else (st, false)

/-- Embedding of the `processEdge` lambda: in METHOD mode, MEMBER and
TYPE_USAGE edges are dropped before anything happens; otherwise the
`(next, mode)` state is tested against the visited set (recorded in
`trace`) and, when fresh, marked visited and enqueued with the current
frame as parent. -/
def processEdgeImpact (currentIndex : Int) (depth : Int)
    (modeKindLocal : Option SymbolKind) (st : ImpactState)
    (edge : Int × EdgeKind) : ImpactState :=
  if modeKindLocal = some SymbolKind.METHOD ∧
      (edge.2 = EdgeKind.MEMBER ∨ edge.2 = EdgeKind.TYPE_USAGE) then st
  else if (edge.1, modeKindLocal) ∈ st.visited then
    { st with trace := st.trace ++ [(modeKindLocal, edge.2)] }
  else
    { st with
      visited := st.visited ++ [(edge.1, modeKindLocal)]
      trace := st.trace ++ [(modeKindLocal, edge.2)]
      queue := st.queue ++ [⟨edge.1, depth + 1, currentIndex, modeKindLocal⟩] }

/-- The loop body once the dequeued frame's symbol has been resolved:
the exclude check (skipping detection and expansion), detection (which
may skip expansion through its `continue`), then expansion over
incoming edges and outgoing OVERRIDE edges.  The head has already been
advanced in `st`; `currentIndex` of the C++ is `st.head - 1`'s old
value, passed to `detectStep` and `processEdgeImpact` as the position
of the dequeued frame. -/
def impactStepSym (env : ImpactEnv) (st : ImpactState) (item : QueueItem)
    (sym : Symbol) : ImpactState :=
  if isIgnoredCheck env sym then { st with head := st.head + 1 }
  else if (detectStep env { st with head := st.head + 1 } (st.head : Int) sym
      (toFqn sym.nameHierarchy)).2 then
    (detectStep env { st with head := st.head + 1 } (st.head : Int) sym
      (toFqn sym.nameHierarchy)).1
  else
    ((outgoingAdjOf env sym.id).filter
        (fun e => e.2 = EdgeKind.OVERRIDE)).foldl
      (processEdgeImpact (st.head : Int) item.depth item.modeKind)
      ((incomingAdjOf env sym.id).foldl
        (processEdgeImpact (st.head : Int) item.depth item.modeKind)
        (detectStep env { st with head := st.head + 1 } (st.head : Int) sym
          (toFqn sym.nameHierarchy)).1)

/-- The loop body once a frame has been dequeued: resolve its symbol,
dropping the frame when missing. -/
def impactStepCore (env : ImpactEnv) (st : ImpactState) (item : QueueItem) :
    ImpactState :=
  match getSymById env item.symbolId with
  | none => { st with head := st.head + 1 }
  | some sym => impactStepSym env st item sym

/-- One iteration of the impact-analyzer BFS loop body: pop the frame
at `head`, drop it if its symbol is missing or excluded, run detection
(which may skip expansion), then expand over incoming edges and
outgoing OVERRIDE edges.  `currentIndex` of the C++ is `st.head` (the
index before the increment). -/
def impactStep (env : ImpactEnv) (st : ImpactState) : ImpactState :=
  match st.queue[st.head]? with
  | none => { st with head := st.head + 1 }
  | some item => impactStepCore env st item

/-- The safety cap of the impact-analyzer BFS. -/
def BFS_LIMIT : Nat := 100000000

/-- The impact-analyzer BFS loop
(`while (head < queue.size() && queue.size() < BFS_LIMIT)`), with
explicit fuel; the claims about it are invariants that hold for every
fuel value. -/
def impactRun (env : ImpactEnv) : Nat → ImpactState → ImpactState
  | 0, st => st
  | fuel + 1, st =>
    if st.head < st.queue.length ∧ st.queue.length < BFS_LIMIT then
      impactRun env fuel (impactStep env st)
    else st

/-- Well-formedness of the queue's parent pointers with respect to the
exclude set: every frame's parent (when present) sits strictly earlier
in the queue and holds a non-excluded symbol.  The BFS maintains this
because children are only enqueued while their parent — which passed
the exclude check — is being expanded. -/
def ParentPure (env : ImpactEnv) (queue : List QueueItem) : Prop :=
  ∀ (i : Nat) (item : QueueItem), queue[i]? = some item → 0 ≤ item.parentIndex →
    item.parentIndex.toNat < i ∧
    ∀ pitem : QueueItem, queue[item.parentIndex.toNat]? = some pitem →
      isIgnoredId env pitem.symbolId = false

/-- Purity of the recorded hits: in every recorded path, every node
except the final class id is non-excluded. -/
def HitsPure (env : ImpactEnv) (st : ImpactState) : Prop :=
  ∀ hit ∈ st.hits, ∀ v ∈ hit.2.2.dropLast, isIgnoredId env v = false

/-- The seeded initial state of the impact-analyzer BFS: one frame per
resolved start symbol carrying its mode, with parent index -1, and the
matching `(id, mode)` pairs pre-inserted into the visited set. -/
def impactInit (starts : List (Int × Option SymbolKind)) : ImpactState :=
  { queue := starts.map (fun s => ⟨s.1, 0, -1, s.2⟩)
    head := 0
    visited := starts.map (fun s => (s.1, s.2))
    foundTestSymbols := []
    foundTestSymbolsSet := []
    foundTestFqnsSet := []
    hits := []
    trace := [] }

/-- A concrete two-symbol environment exercising the exclude set against
the method-to-class promotion: class `NS::FooTest` (id 2) is excluded,
while its method `NS::FooTest::m` (id 1) is not. -/
def excludeEnvExample : ImpactEnv :=
  { symbols :=
      [⟨1, ⟨[':', ':'],
          [⟨['N', 'S'], [], []⟩, ⟨['F', 'o', 'o', 'T', 'e', 's', 't'], [], []⟩,
            ⟨['m'], [], []⟩]⟩, SymbolKind.METHOD⟩,
        ⟨2, ⟨[':', ':'],
          [⟨['N', 'S'], [], []⟩, ⟨['F', 'o', 'o', 'T', 'e', 's', 't'], [], []⟩]⟩,
          SymbolKind.CLASS⟩]
    edges := []
    excludeSymbols := [['N', 'S', ':', ':', 'F', 'o', 'o', 'T', 'e', 's', 't']]
    testNamespace := ['N', 'S'] }

end Stdb

namespace Stdb

/-! ### Lemmas about the serialized-name codec -/

theorem listStartsWith_append (p rest : List Char) :
    listStartsWith (p ++ rest) p = true := by
  induction p with
  | nil => simp [listStartsWith]
  | cons c cs ih => simp [listStartsWith, ih]

theorem splitFirst_self_append (pat b : List Char) (hpat : pat ≠ []) :
    splitFirst pat (pat ++ b) = some ([], b) := by
  cases pat with
  | nil => exact absurd rfl hpat
  | cons p ps =>
    show splitFirst (p :: ps) (p :: (ps ++ b)) = some ([], b)
    rw [splitFirst]
    have hs : listStartsWith (p :: (ps ++ b)) (p :: ps) = true := by
      simpa using listStartsWith_append (p :: ps) b
    rw [hs]
    simp [List.drop_left']

theorem splitFirst_no_head (t : Char) (p a b : List Char) (h : t ∉ a) :
    splitFirst (t :: p) (a ++ (t :: p) ++ b) = some (a, b) := by
  induction a with
  | nil =>
    simpa using splitFirst_self_append (t :: p) b (by simp)
  | cons c a' ih =>
    have hct : c ≠ t := fun hc => h (by simp [hc])
    have hmem : t ∉ a' := fun hm => h (by simp [hm])
    show splitFirst (t :: p) (c :: (a' ++ (t :: p) ++ b)) = some (c :: a', b)
    rw [splitFirst]
    have hs : listStartsWith (c :: (a' ++ (t :: p) ++ b)) (t :: p) = false := by
      simp [listStartsWith, hct]
    rw [hs]
    simp only [Bool.false_eq_true, if_false]
    rw [ih hmem]
    rfl

theorem splitFirst_nil_of_ne (pat : List Char) (hpat : pat ≠ []) :
    splitFirst pat [] = none := by
  cases pat with
  | nil => exact absurd rfl hpat
  | cons p ps => rfl

/-- Parsing the encoded body of tab-free names recovers the names with
empty prefixes and postfixes (any sufficient fuel). -/
theorem parseNameElementsAux_encode (names : List (List Char)) :
    ∀ fuel : Nat, (encodeSerializedBody names).length ≤ fuel →
      (∀ n ∈ names, ('\t' : Char) ∉ n) →
      parseNameElementsAux fuel (encodeSerializedBody names) =
        names.map (fun n => ⟨n, [], []⟩) := by
  induction names with
  | nil =>
    intro fuel _ _
    cases fuel with
    | zero => rfl
    | succ f => rfl
  | cons n rest ih =>
    intro fuel hfuel hnames
    have hn : ('\t' : Char) ∉ n := hnames n (by simp)
    cases rest with
    | nil =>
      have hlen : (encodeSerializedBody [n]).length = n.length + 4 := by
        simp [encodeSerializedBody, PART_DELIMITER, SIGNATURE_DELIMITER]
      cases fuel with
      | zero => omega
      | succ f =>
        have h1 : splitFirst PART_DELIMITER (encodeSerializedBody [n]) =
            some (n, SIGNATURE_DELIMITER) := by
          have := splitFirst_no_head '\t' ['s'] n SIGNATURE_DELIMITER hn
          simpa [encodeSerializedBody, PART_DELIMITER, List.append_assoc] using this
        have h2 : splitFirst SIGNATURE_DELIMITER SIGNATURE_DELIMITER =
            some ([], []) := by
          simpa using splitFirst_self_append SIGNATURE_DELIMITER []
            (by simp [SIGNATURE_DELIMITER])
        have h3 : splitFirst NAME_DELIMITER [] = none :=
          splitFirst_nil_of_ne NAME_DELIMITER (by simp [NAME_DELIMITER])
        rw [parseNameElementsAux]
        simp only [h1, h2, h3, List.map_cons, List.map_nil]
    | cons n2 rest2 =>
      have hlen : (encodeSerializedBody (n :: n2 :: rest2)).length =
          n.length + 6 + (encodeSerializedBody (n2 :: rest2)).length := by
        simp [encodeSerializedBody, PART_DELIMITER, SIGNATURE_DELIMITER,
          NAME_DELIMITER]
        omega
      cases fuel with
      | zero => omega
      | succ f =>
        have h1 : splitFirst PART_DELIMITER (encodeSerializedBody (n :: n2 :: rest2)) =
            some (n, SIGNATURE_DELIMITER ++ NAME_DELIMITER ++
              encodeSerializedBody (n2 :: rest2)) := by
          have := splitFirst_no_head '\t' ['s'] n
            (SIGNATURE_DELIMITER ++ NAME_DELIMITER ++ encodeSerializedBody (n2 :: rest2)) hn
          simpa [encodeSerializedBody, PART_DELIMITER, List.append_assoc] using this
        have h2 : splitFirst SIGNATURE_DELIMITER
            (SIGNATURE_DELIMITER ++ NAME_DELIMITER ++ encodeSerializedBody (n2 :: rest2)) =
            some ([], NAME_DELIMITER ++ encodeSerializedBody (n2 :: rest2)) := by
          have := splitFirst_self_append SIGNATURE_DELIMITER
            (NAME_DELIMITER ++ encodeSerializedBody (n2 :: rest2))
            (by simp [SIGNATURE_DELIMITER])
          simpa [List.append_assoc] using this
        have h3 : splitFirst NAME_DELIMITER
            (NAME_DELIMITER ++ encodeSerializedBody (n2 :: rest2)) =
            some ([], encodeSerializedBody (n2 :: rest2)) :=
          splitFirst_self_append NAME_DELIMITER (encodeSerializedBody (n2 :: rest2))
            (by simp [NAME_DELIMITER])
        have hrest : (encodeSerializedBody (n2 :: rest2)).length ≤ f := by omega
        rw [parseNameElementsAux]
        simp only [h1, h2, h3, List.map_cons]
        rw [ih f hrest (fun m hm => hnames m (by simp [hm]))]
        simp

theorem map_name_eq_self (l : List NameElement)
    (h : ∀ e ∈ l, e.prefixStr = [] ∧ e.postfixStr = []) :
    (l.map (·.name)).map (fun n => (⟨n, [], []⟩ : NameElement)) = l := by
  induction l with
  | nil => rfl
  | cons e rest ih =>
    have he := h e (by simp)
    have hmk : (⟨e.name, [], []⟩ : NameElement) = e := by
      cases e
      simp_all
    simp only [List.map_cons, hmk]
    rw [ih (fun x hx => h x (by simp [hx]))]

/-- Claim C2 (confirmed).  Name-codec round trip: a `NameHierarchy` with
a non-empty element list, all prefixes and postfixes empty, and no tab
character in the delimiter or in any element name is recovered exactly
by decoding its encoding. -/
theorem nameCodec_roundTrip (h : NameHierarchy)
    (hne : h.nameElements ≠ [])
    (hpre : ∀ e ∈ h.nameElements, e.prefixStr = [] ∧ e.postfixStr = [])
    (hdelim : ('\t' : Char) ∉ h.nameDelimiter)
    (hnames : ∀ e ∈ h.nameElements, ('\t' : Char) ∉ e.name) :
    parseSerializedNameHierarchy
      (encodeSerialized (h.nameElements.map (·.name)) h.nameDelimiter) = h := by
  have hmeta : splitFirst META_DELIMITER
      (encodeSerialized (h.nameElements.map (·.name)) h.nameDelimiter) =
      some (h.nameDelimiter, encodeSerializedBody (h.nameElements.map (·.name))) := by
    have := splitFirst_no_head '\t' ['m'] h.nameDelimiter
      (encodeSerializedBody (h.nameElements.map (·.name))) hdelim
    simpa [encodeSerialized, META_DELIMITER, List.append_assoc] using this
  rw [parseSerializedNameHierarchy, hmeta]
  have hparse : parseNameElements
      (encodeSerializedBody (h.nameElements.map (·.name))) =
      (h.nameElements.map (·.name)).map (fun n => ⟨n, [], []⟩) := by
    apply parseNameElementsAux_encode
    · exact le_refl _
    · intro n hn
      rcases List.mem_map.mp hn with ⟨e, he, rfl⟩
      exact hnames e he
  simp only [hparse, map_name_eq_self h.nameElements hpre]
  have hnonempty : h.nameElements.isEmpty = false := by
    cases hh : h.nameElements with
    | nil => exact absurd hh hne
    | cons a b => rfl
  simp [hnonempty]

/-- Witness for claim C2 at a concrete hierarchy. -/
theorem nameCodec_roundTrip_witness :
    parseSerializedNameHierarchy
      (encodeSerialized
        ((⟨[':', ':'], [⟨['A'], [], []⟩, ⟨['B'], [], []⟩]⟩ :
            NameHierarchy).nameElements.map (·.name))
        [':', ':']) =
      ⟨[':', ':'], [⟨['A'], [], []⟩, ⟨['B'], [], []⟩]⟩ :=
  nameCodec_roundTrip ⟨[':', ':'], [⟨['A'], [], []⟩, ⟨['B'], [], []⟩]⟩
    (by decide) (by decide) (by decide) (by decide)

/-- Counterexample to claim C6 as stated: the empty string does not
contain the META separator, yet the decoder returns an empty element
list for it rather than a single element naming the whole (empty)
input. -/
theorem decoder_fallback_counterexample :
    splitFirst META_DELIMITER [] = none ∧
    parseSerializedNameHierarchy [] =
      { nameDelimiter := [':', ':'], nameElements := [] } ∧
    (parseSerializedNameHierarchy []).nameElements ≠ [⟨[], [], []⟩] := by
  refine ⟨by decide, by decide, by decide⟩

/-- Claim C6 (corrected).  For every non-empty input in which the META
separator does not occur, the decoder returns delimiter `"::"` and a
single element whose name is the whole input. -/
theorem decoder_fallback (s : List Char) (hs : s ≠ [])
    (hmeta : splitFirst META_DELIMITER s = none) :
    parseSerializedNameHierarchy s =
      { nameDelimiter := [':', ':'], nameElements := [⟨s, [], []⟩] } := by
  rw [parseSerializedNameHierarchy, hmeta]
  have : s.isEmpty = false := by
    cases s with
    | nil => exact absurd rfl hs
    | cons a b => rfl
  simp [this]

/-- Witness for the corrected claim C6 at a concrete input. -/
theorem decoder_fallback_witness :
    parseSerializedNameHierarchy ['a', 'b', 'c'] =
      { nameDelimiter := [':', ':'], nameElements := [⟨['a', 'b', 'c'], [], []⟩] } :=
  decoder_fallback ['a', 'b', 'c'] (by decide) (by decide)

/-! ### Lemmas about the chunker -/

/-- Claim C3 (confirmed).  When both line numbers are valid for the
file's offset table, `sliceByRange` computes exactly the byte range the
specification states (inclusive end column, clamping, `end ≥ start`). -/
theorem sliceByRange_spec (text : List Char) (l1 c1 l2 c2 : Int)
    (h1 : 1 ≤ l1) (h1' : l1.toNat < (buildLineOffsets text).length)
    (h2 : 1 ≤ l2) (h2' : l2.toNat < (buildLineOffsets text).length) :
    sliceByRange text (buildLineOffsets text) l1 c1 l2 c2 =
      sliceSpecC3 text (buildLineOffsets text) l1 c1 l2 c2 := by
  rw [sliceByRange]
  rw [if_neg (by omega)]
  rw [if_neg (by omega)]
  rfl

/-- Witness for claim C3 on the file text of the spec's scenario E,
`"int x;\nvoid y(){}\n"`, slicing the scope `(2,1,2,10)` (end column
inclusive) to `"void y(){}"`. -/
theorem sliceByRange_spec_witness :
    sliceByRange (String.toList "int x;\nvoid y()\x7b\x7d\n")
        (buildLineOffsets (String.toList "int x;\nvoid y()\x7b\x7d\n")) 2 1 2 10 =
      sliceSpecC3 (String.toList "int x;\nvoid y()\x7b\x7d\n")
        (buildLineOffsets (String.toList "int x;\nvoid y()\x7b\x7d\n")) 2 1 2 10 ∧
    sliceByRange (String.toList "int x;\nvoid y()\x7b\x7d\n")
        (buildLineOffsets (String.toList "int x;\nvoid y()\x7b\x7d\n")) 2 1 2 10 =
      String.toList "void y()\x7b\x7d" :=
  ⟨sliceByRange_spec (String.toList "int x;\nvoid y()\x7b\x7d\n") 2 1 2 10
      (by decide) (by decide) (by decide) (by decide),
    by decide⟩

/-- Claim C10 (confirmed).  `sliceByRange` is total and in-bounds: out
of range line numbers give the empty string, and in every case the
result is a contiguous in-bounds substring of the text. -/
theorem sliceByRange_safe (text : List Char) (lineOffs : List Nat)
    (l1 c1 l2 c2 : Int) :
    ((l1 ≤ 0 ∨ l2 ≤ 0 ∨ l1.toNat ≥ lineOffs.length ∨ l2.toNat ≥ lineOffs.length) →
      sliceByRange text lineOffs l1 c1 l2 c2 = []) ∧
    ∃ s e : Nat, s ≤ e ∧ e ≤ text.length ∧
      sliceByRange text lineOffs l1 c1 l2 c2 = (text.drop s).take (e - s) := by
  constructor
  · intro h
    rw [sliceByRange]
    by_cases hg1 : l1 ≤ 0 ∨ l2 ≤ 0
    · rw [if_pos hg1]
    · rw [if_neg hg1]
      rw [if_pos (by omega)]
  · rw [sliceByRange]
    by_cases hg1 : l1 ≤ 0 ∨ l2 ≤ 0
    · rw [if_pos hg1]
      exact ⟨0, 0, le_refl 0, Nat.zero_le _, by simp⟩
    · rw [if_neg hg1]
      by_cases hg2 : l1.toNat ≥ lineOffs.length ∨ l2.toNat ≥ lineOffs.length
      · rw [if_pos hg2]
        exact ⟨0, 0, le_refl 0, Nat.zero_le _, by simp⟩
      · rw [if_neg hg2]
        refine ⟨clampStart text.length (sliceStartRaw lineOffs l1 c1),
          clampEnd text.length (clampStart text.length (sliceStartRaw lineOffs l1 c1))
            (sliceEndRaw lineOffs l2 c2), ?_, ?_, rfl⟩
        · rw [clampStart, clampEnd]
          split_ifs <;> omega
        · rw [clampStart, clampEnd]
          split_ifs <;> omega

/-- Witness for claim C10 at a concrete out-of-range input. -/
theorem sliceByRange_safe_witness :
    sliceByRange ['x'] [0, 1] 5 1 5 1 = [] ∧
    ∃ s e : Nat, s ≤ e ∧ e ≤ (['x'] : List Char).length ∧
      sliceByRange ['x'] [0, 1] 5 1 5 1 = ((['x'] : List Char).drop s).take (e - s) :=
  ⟨(sliceByRange_safe ['x'] [0, 1] 5 1 5 1).1 (by decide),
    (sliceByRange_safe ['x'] [0, 1] 5 1 5 1).2⟩

/-! ### The worker-count rule -/

/-- Counterexample to claim C8 as stated: when `hardware_concurrency`
reports `0`, the worker count is `1`, not the claimed default of `4`
(the `hw ? hw : 4u` fallback is dead code because `hw ≥ 1` always). -/
theorem numThreads_counterexample : numThreads 0 = 1 ∧ numThreads 0 ≠ 4 := by
  decide

/-- Claim C8 (corrected).  Each parallel phase spawns
`max 1 hardware_concurrency` workers: one per logical core, bounded
below at 1; in particular an unknown core count (0) yields 1 worker,
and the `4` fallback is unreachable. -/
theorem numThreads_rule (hc : Nat) :
    numThreads hc = max 1 hc ∧ 1 ≤ numThreads hc := by
  have hne : max 1 hc ≠ 0 := by omega
  have h1 : numThreads hc = max 1 hc := by
    rw [numThreads]
    simp [hne]
  exact ⟨h1, by omega⟩

/-- Witness for the corrected claim C8 at a concrete core count. -/
theorem numThreads_rule_witness : numThreads 8 = max 1 8 ∧ 1 ≤ numThreads 8 :=
  numThreads_rule 8

/-! ### Open/close behaviour of the reader -/

/-- Counterexample to claim C7 as stated: opening a database whose
stored schema version (26) is incompatible returns failure with an
error message, but the reader still holds the storage handle, so
`isOpen()` returns `true`, not `false`. -/
theorem openReader_counterexample :
    (openReader (some ⟨26⟩) ⟨none, []⟩).2 = false ∧
    (openReader (some ⟨26⟩) ⟨none, []⟩).1.m_lastError ≠ [] ∧
    isOpen (openReader (some ⟨26⟩) ⟨none, []⟩).1 = true := by
  decide

/-- Claim C7 (corrected).  For every reader state and every database
whose stored schema version is incompatible, `open` returns failure
with a non-empty error message, and the reader retains the handle:
`isOpen()` returns `true` until `close()` is called (which always
resets it). -/
theorem openReader_incompatible (r : SourcetrailDBReader) (st : DatabaseStorage)
    (h : isCompatible st = false) :
    (openReader (some st) r).2 = false ∧
    (openReader (some st) r).1.m_lastError ≠ [] ∧
    isOpen (openReader (some st) r).1 = true ∧
    isOpen (closeReader (openReader (some st) r).1).1 = false := by
  have heq : openReader (some st) r =
      ({ m_databaseStorage := some st, m_lastError := versionErrorMsg }, false) := by
    rw [openReader]
    simp [h]
  refine ⟨by rw [heq], ?_, by rw [heq]; rfl, by rw [heq]; rfl⟩
  rw [heq]
  show versionErrorMsg ≠ []
  decide

/-- Witness for the corrected claim C7 at a concrete incompatible
version. -/
theorem openReader_incompatible_witness :
    (openReader (some ⟨7⟩) ⟨none, []⟩).2 = false ∧
    (openReader (some ⟨7⟩) ⟨none, []⟩).1.m_lastError ≠ [] ∧
    isOpen (openReader (some ⟨7⟩) ⟨none, []⟩).1 = true ∧
    isOpen (closeReader (openReader (some ⟨7⟩) ⟨none, []⟩).1).1 = false :=
  openReader_incompatible ⟨none, []⟩ ⟨7⟩ (by decide)

/-! ### The test indexer's per-method BFS -/

theorem processRef_cases (m : Int) (st : BfsState) (ref : Int × EdgeKind) :
    processRef m st ref = st ∨
    (ref.2 ≠ EdgeKind.MEMBER ∧ ref.1 ≠ 0 ∧ ref.1 ∉ st.visited ∧
      processRef m st ref =
        ⟨st.visited ++ [ref.1], st.queue ++ [ref.1], st.pairs ++ [(ref.1, m)]⟩) := by
  rw [processRef]
  split_ifs with h1 h2 h3
  · exact Or.inl rfl
  · exact Or.inl rfl
  · exact Or.inl rfl
  · exact Or.inr ⟨h1, h2, h3, rfl⟩

theorem processRef_visited_mono (m : Int) (st : BfsState) (ref : Int × EdgeKind)
    (v : Int) (hv : v ∈ st.visited) : v ∈ (processRef m st ref).visited := by
  rcases processRef_cases m st ref with h | ⟨_, _, _, h⟩ <;> rw [h] <;> simp [hv]

theorem processRef_queue_mono (m : Int) (st : BfsState) (ref : Int × EdgeKind)
    (v : Int) (hv : v ∈ st.queue) : v ∈ (processRef m st ref).queue := by
  rcases processRef_cases m st ref with h | ⟨_, _, _, h⟩ <;> rw [h] <;> simp [hv]

theorem processRef_pairs_mono (m : Int) (st : BfsState) (ref : Int × EdgeKind)
    (p : Int × Int) (hp : p ∈ st.pairs) : p ∈ (processRef m st ref).pairs := by
  rcases processRef_cases m st ref with h | ⟨_, _, _, h⟩ <;> rw [h] <;> simp [hp]

theorem foldl_processRef_visited_mono (m : Int) (refs : List (Int × EdgeKind)) :
    ∀ st : BfsState, ∀ v ∈ st.visited,
      v ∈ (refs.foldl (processRef m) st).visited := by
  induction refs with
  | nil => intro st v hv; exact hv
  | cons r rest ih =>
    intro st v hv
    exact ih (processRef m st r) v (processRef_visited_mono m st r v hv)

theorem foldl_processRef_queue_mono (m : Int) (refs : List (Int × EdgeKind)) :
    ∀ st : BfsState, ∀ v ∈ st.queue,
      v ∈ (refs.foldl (processRef m) st).queue := by
  induction refs with
  | nil => intro st v hv; exact hv
  | cons r rest ih =>
    intro st v hv
    exact ih (processRef m st r) v (processRef_queue_mono m st r v hv)

theorem foldl_processRef_pairs_mono (m : Int) (refs : List (Int × EdgeKind)) :
    ∀ st : BfsState, ∀ p ∈ st.pairs,
      p ∈ (refs.foldl (processRef m) st).pairs := by
  induction refs with
  | nil => intro st p hp; exact hp
  | cons r rest ih =>
    intro st p hp
    exact ih (processRef m st r) p (processRef_pairs_mono m st r p hp)

theorem processRef_eligible_visited (m : Int) (st : BfsState) (t : Int)
    (k : EdgeKind) (hk : k ≠ EdgeKind.MEMBER) (ht : t ≠ 0) :
    t ∈ (processRef m st (t, k)).visited := by
  rw [processRef]
  rw [if_neg (show ¬((t, k).2 = EdgeKind.MEMBER) from hk)]
  rw [if_neg (show ¬((t, k).1 = 0) from ht)]
  by_cases h3 : (t, k).1 ∈ st.visited
  · rw [if_pos h3]
    exact h3
  · rw [if_neg h3]
    simp

theorem foldl_processRef_eligible (m : Int) (refs : List (Int × EdgeKind)) :
    ∀ st : BfsState, ∀ t k, (t, k) ∈ refs → k ≠ EdgeKind.MEMBER → t ≠ 0 →
      t ∈ (refs.foldl (processRef m) st).visited := by
  induction refs with
  | nil => intro st t k h; exact absurd h (List.not_mem_nil _)
  | cons r rest ih =>
    intro st t k htk hk ht
    rcases List.mem_cons.mp htk with heq | hmem
    · subst heq
      exact foldl_processRef_visited_mono m rest (processRef m st (t, k)) t
        (processRef_eligible_visited m st t k hk ht)
    · exact ih (processRef m st r) t k hmem hk ht

theorem foldl_processRef_visited_src (m : Int) (refs : List (Int × EdgeKind)) :
    ∀ st : BfsState, ∀ v, v ∈ (refs.foldl (processRef m) st).visited →
      v ∈ st.visited ∨
        (v ≠ 0 ∧ ∃ k, (v, k) ∈ refs ∧ k ≠ EdgeKind.MEMBER) := by
  induction refs with
  | nil => intro st v hv; exact Or.inl hv
  | cons r rest ih =>
    intro st v hv
    rcases ih (processRef m st r) v hv with hfirst | ⟨hz, k, hk, hkm⟩
    · rcases processRef_cases m st r with h | ⟨hm, hz, _, h⟩
      · rw [h] at hfirst; exact Or.inl hfirst
      · rw [h] at hfirst
        rcases List.mem_append.mp hfirst with hold | hnew
        · exact Or.inl hold
        · have hv1 : v = r.1 := by simpa using hnew
          subst hv1
          exact Or.inr ⟨hz, r.2, by simp, hm⟩
    · exact Or.inr ⟨hz, k, List.mem_cons_of_mem r hk, hkm⟩

theorem foldl_processRef_queue_src (m : Int) (refs : List (Int × EdgeKind)) :
    ∀ st : BfsState, ∀ v, v ∈ (refs.foldl (processRef m) st).queue →
      v ∈ st.queue ∨ v ∈ (refs.foldl (processRef m) st).visited := by
  induction refs with
  | nil => intro st v hv; exact Or.inl hv
  | cons r rest ih =>
    intro st v hv
    rcases ih (processRef m st r) v hv with hfirst | hvis
    · rcases processRef_cases m st r with h | ⟨_, _, _, h⟩
      · rw [h] at hfirst; exact Or.inl hfirst
      · rw [h] at hfirst
        rcases List.mem_append.mp hfirst with hold | hnew
        · exact Or.inl hold
        · have hv1 : v = r.1 := by simpa using hnew
          subst hv1
          refine Or.inr (foldl_processRef_visited_mono m rest (processRef m st r) r.1 ?_)
          rw [h]; simp
    · exact Or.inr hvis

theorem foldl_processRef_new_in_queue (m : Int) (refs : List (Int × EdgeKind)) :
    ∀ st : BfsState, ∀ v, v ∈ (refs.foldl (processRef m) st).visited →
      v ∈ st.visited ∨ v ∈ (refs.foldl (processRef m) st).queue := by
  induction refs with
  | nil => intro st v hv; exact Or.inl hv
  | cons r rest ih =>
    intro st v hv
    rcases ih (processRef m st r) v hv with hfirst | hq
    · rcases processRef_cases m st r with h | ⟨_, _, _, h⟩
      · rw [h] at hfirst; exact Or.inl hfirst
      · rw [h] at hfirst
        rcases List.mem_append.mp hfirst with hold | hnew
        · exact Or.inl hold
        · have hv1 : v = r.1 := by simpa using hnew
          subst hv1
          refine Or.inr (foldl_processRef_queue_mono m rest (processRef m st r) r.1 ?_)
          rw [h]; simp
    · exact Or.inr hq

theorem foldl_processRef_new_in_pairs (m : Int) (refs : List (Int × EdgeKind)) :
    ∀ st : BfsState, ∀ v, v ∈ (refs.foldl (processRef m) st).visited →
      v ∈ st.visited ∨ (v, m) ∈ (refs.foldl (processRef m) st).pairs := by
  induction refs with
  | nil => intro st v hv; exact Or.inl hv
  | cons r rest ih =>
    intro st v hv
    rcases ih (processRef m st r) v hv with hfirst | hp
    · rcases processRef_cases m st r with h | ⟨_, _, _, h⟩
      · rw [h] at hfirst; exact Or.inl hfirst
      · rw [h] at hfirst
        rcases List.mem_append.mp hfirst with hold | hnew
        · exact Or.inl hold
        · have hv1 : v = r.1 := by simpa using hnew
          subst hv1
          refine Or.inr (foldl_processRef_pairs_mono m rest (processRef m st r) (r.1, m) ?_)
          rw [h]; simp
    · exact Or.inr hp

theorem foldl_processRef_pairs_src (m : Int) (refs : List (Int × EdgeKind)) :
    ∀ st : BfsState, ∀ p : Int × Int, p ∈ (refs.foldl (processRef m) st).pairs →
      p ∈ st.pairs ∨
        (p.2 = m ∧ p.1 ≠ 0 ∧ p.1 ∉ st.visited ∧
          ∃ k, (p.1, k) ∈ refs ∧ k ≠ EdgeKind.MEMBER) := by
  induction refs with
  | nil => intro st p hp; exact Or.inl hp
  | cons r rest ih =>
    intro st p hp
    rcases ih (processRef m st r) p hp with hfirst | ⟨h2, hz, hnv, k, hk, hkm⟩
    · rcases processRef_cases m st r with h | ⟨hm, hz, hvis, h⟩
      · rw [h] at hfirst; exact Or.inl hfirst
      · rw [h] at hfirst
        rcases List.mem_append.mp hfirst with hold | hnew
        · exact Or.inl hold
        · have hp1 : p = (r.1, m) := by simpa using hnew
          subst hp1
          exact Or.inr ⟨rfl, hz, hvis, r.2, by simp, hm⟩
    · refine Or.inr ⟨h2, hz, ?_, k, List.mem_cons_of_mem r hk, hkm⟩
      intro hmem
      exact hnv (processRef_visited_mono m st r p.1 hmem)

theorem adjacencyOf_target_mem (edges : List EdgeBrief) (maxId cur t : Int)
    (k : EdgeKind) (h : (t, k) ∈ adjacencyOf edges maxId cur) :
    t ∈ edges.map (·.targetSymbolId) := by
  rw [adjacencyOf] at h
  split_ifs at h with hr
  · rcases List.mem_map.mp h with ⟨e, he, heq⟩
    have : e.targetSymbolId = t := congrArg Prod.fst heq
    exact List.mem_map.mpr ⟨e, List.mem_of_mem_filter he, this⟩
  · exact absurd h (List.not_mem_nil _)

theorem processRef_measure_le (edges : List EdgeBrief) (m : Int) (st : BfsState)
    (ref : Int × EdgeKind) (href : ref.1 ∈ edges.map (·.targetSymbolId)) :
    bfsMeasure edges (processRef m st ref) ≤ bfsMeasure edges st := by
  rcases processRef_cases m st ref with h | ⟨_, _, hvis, h⟩
  · rw [h]
  · rw [h, bfsMeasure, bfsMeasure]
    have hvt : (st.visited ++ [ref.1]).toFinset = insert ref.1 st.visited.toFinset := by
      simp [List.toFinset_append]
      exact Finset.union_comm _ _
    have hsd : (edges.map (·.targetSymbolId)).toFinset \
        (st.visited ++ [ref.1]).toFinset =
        ((edges.map (·.targetSymbolId)).toFinset \ st.visited.toFinset).erase ref.1 := by
      rw [hvt]
      ext a
      simp only [Finset.mem_sdiff, Finset.mem_insert, Finset.mem_erase]
      tauto
    have hmem : ref.1 ∈ (edges.map (·.targetSymbolId)).toFinset \
        st.visited.toFinset := by
      rw [Finset.mem_sdiff]
      exact ⟨List.mem_toFinset.mpr href, fun hc => hvis (List.mem_toFinset.mp hc)⟩
    have hcard := Finset.card_erase_of_mem hmem
    have hpos : 0 < ((edges.map (·.targetSymbolId)).toFinset \
        st.visited.toFinset).card := Finset.card_pos.mpr ⟨ref.1, hmem⟩
    simp only [hsd, List.length_append, List.length_singleton]
    omega

theorem foldl_processRef_measure (edges : List EdgeBrief) (m : Int)
    (refs : List (Int × EdgeKind))
    (hrefs : ∀ r ∈ refs, r.1 ∈ edges.map (·.targetSymbolId)) :
    ∀ st : BfsState,
      bfsMeasure edges (refs.foldl (processRef m) st) ≤ bfsMeasure edges st := by
  induction refs with
  | nil => intro st; exact le_refl _
  | cons r rest ih =>
    intro st
    calc bfsMeasure edges ((r :: rest).foldl (processRef m) st)
        = bfsMeasure edges (rest.foldl (processRef m) (processRef m st r)) := rfl
      _ ≤ bfsMeasure edges (processRef m st r) :=
          ih (fun x hx => hrefs x (List.mem_cons_of_mem r hx)) _
      _ ≤ bfsMeasure edges st :=
          processRef_measure_le edges m st r (hrefs r (List.mem_cons_self r rest))

theorem bfsLoop_queue_empty (edges : List EdgeBrief) (maxId m : Int) :
    ∀ fuel : Nat, ∀ st : BfsState, bfsMeasure edges st ≤ fuel →
      (bfsLoop edges maxId m fuel st).queue = [] := by
  intro fuel
  induction fuel with
  | zero =>
    intro st h
    have : st.queue.length = 0 := by
      rw [bfsMeasure] at h; omega
    rw [bfsLoop]
    exact List.length_eq_zero.mp this
  | succ f ih =>
    intro st h
    rw [bfsLoop]
    cases hq : st.queue with
    | nil => exact hq
    | cons cur rest =>
      apply ih
      have hstep : bfsMeasure edges
          ((adjacencyOf edges maxId cur).foldl (processRef m)
            { st with queue := rest }) ≤
          bfsMeasure edges { st with queue := rest } := by
        apply foldl_processRef_measure
        intro r hr
        exact adjacencyOf_target_mem edges maxId cur r.1 r.2 (by simpa using hr)
      have hm1 : bfsMeasure edges { st with queue := rest } + 1 =
          bfsMeasure edges st := by
        rw [bfsMeasure, bfsMeasure]
        simp [hq]
        omega
      omega

/-- The combined loop invariant of the per-method BFS: the method is
visited; the queue is a subset of the visited set; every recorded pair
is a non-zero, non-self pair for this method whose target is reachable
by a non-MEMBER zero-free path; every visited node other than the
method has its pair recorded; and every visited node no longer in the
queue has all its eligible successors visited. -/
theorem bfsInv_step (edges : List EdgeBrief) (maxId m : Int) (st : BfsState)
    (cur : Int) (rest : List Int) (hq : st.queue = cur :: rest)
    (h1 : m ∈ st.visited)
    (h2 : ∀ v ∈ st.queue, v ∈ st.visited)
    (h3 : ∀ p : Int × Int, p ∈ st.pairs → p.2 = m ∧ p.1 ≠ 0 ∧ p.1 ≠ m ∧
      ReachesNonMemberNZ (adjacencyOf edges maxId) m p.1)
    (h4 : ∀ v ∈ st.visited, v = m ∨
      ReachesNonMemberNZ (adjacencyOf edges maxId) m v)
    (h5 : ∀ v ∈ st.visited, v = m ∨ (v, m) ∈ st.pairs)
    (h6 : ∀ v ∈ st.visited, v ∉ st.queue →
      ∀ t k, (t, k) ∈ adjacencyOf edges maxId v → k ≠ EdgeKind.MEMBER → t ≠ 0 →
        t ∈ st.visited) :
    let st' := (adjacencyOf edges maxId cur).foldl (processRef m)
      { st with queue := rest }
    m ∈ st'.visited ∧
    (∀ v ∈ st'.queue, v ∈ st'.visited) ∧
    (∀ p : Int × Int, p ∈ st'.pairs → p.2 = m ∧ p.1 ≠ 0 ∧ p.1 ≠ m ∧
      ReachesNonMemberNZ (adjacencyOf edges maxId) m p.1) ∧
    (∀ v ∈ st'.visited, v = m ∨
      ReachesNonMemberNZ (adjacencyOf edges maxId) m v) ∧
    (∀ v ∈ st'.visited, v = m ∨ (v, m) ∈ st'.pairs) ∧
    (∀ v ∈ st'.visited, v ∉ st'.queue →
      ∀ t k, (t, k) ∈ adjacencyOf edges maxId v → k ≠ EdgeKind.MEMBER → t ≠ 0 →
        t ∈ st'.visited) := by
  intro st'
  have hcurv : cur ∈ st.visited := h2 cur (by rw [hq]; simp)
  have hreach_from_cur : ∀ t k, (t, k) ∈ adjacencyOf edges maxId cur →
      k ≠ EdgeKind.MEMBER → t ≠ 0 →
      ReachesNonMemberNZ (adjacencyOf edges maxId) m t := by
    intro t k hk hkm ht
    rcases h4 cur hcurv with hcm | hcr
    · subst hcm
      exact ReachesNonMemberNZ.single t k hk hkm ht
    · exact ReachesNonMemberNZ.tail cur t k hcr hk hkm ht
  refine ⟨?_, ?_, ?_, ?_, ?_, ?_⟩
  · exact foldl_processRef_visited_mono m _ _ m h1
  · intro v hv
    rcases foldl_processRef_queue_src m (adjacencyOf edges maxId cur)
        { st with queue := rest } v hv with hold | hvis
    · have : v ∈ st.visited := h2 v (by rw [hq]; exact List.mem_cons_of_mem cur hold)
      exact foldl_processRef_visited_mono m _ _ v this
    · exact hvis
  · intro p hp
    rcases foldl_processRef_pairs_src m (adjacencyOf edges maxId cur)
        { st with queue := rest } p hp with hold | ⟨hpm, hpz, hpnv, k, hk, hkm⟩
    · exact h3 p hold
    · have hpm' : p.1 ≠ m := fun hc => hpnv (hc ▸ h1)
      exact ⟨hpm, hpz, hpm', hreach_from_cur p.1 k hk hkm hpz⟩
  · intro v hv
    rcases foldl_processRef_visited_src m (adjacencyOf edges maxId cur)
        { st with queue := rest } v hv with hold | ⟨hz, k, hk, hkm⟩
    · exact h4 v hold
    · exact Or.inr (hreach_from_cur v k hk hkm hz)
  · intro v hv
    rcases foldl_processRef_new_in_pairs m (adjacencyOf edges maxId cur)
        { st with queue := rest } v hv with hold | hp
    · rcases h5 v hold with hm | hpair
      · exact Or.inl hm
      · exact Or.inr (foldl_processRef_pairs_mono m _ _ (v, m) hpair)
    · exact Or.inr hp
  · intro v hv hvq t k hk hkm ht
    rcases foldl_processRef_new_in_queue m (adjacencyOf edges maxId cur)
        { st with queue := rest } v hv with hold | hq'
    · by_cases hvsq : v ∈ st.queue
      · rcases List.mem_cons.mp (hq ▸ hvsq) with hvc | hvr
        · subst hvc
          exact foldl_processRef_eligible m (adjacencyOf edges maxId v) _ t k hk hkm ht
        · exact absurd (foldl_processRef_queue_mono m _ { st with queue := rest } v hvr) hvq
      · exact foldl_processRef_visited_mono m _ _ t (h6 v hold hvsq t k hk hkm ht)
    · exact absurd hq' hvq

theorem bfsLoop_inv (edges : List EdgeBrief) (maxId m : Int) :
    ∀ fuel : Nat, ∀ st : BfsState,
      m ∈ st.visited →
      (∀ v ∈ st.queue, v ∈ st.visited) →
      (∀ p : Int × Int, p ∈ st.pairs → p.2 = m ∧ p.1 ≠ 0 ∧ p.1 ≠ m ∧
        ReachesNonMemberNZ (adjacencyOf edges maxId) m p.1) →
      (∀ v ∈ st.visited, v = m ∨
        ReachesNonMemberNZ (adjacencyOf edges maxId) m v) →
      (∀ v ∈ st.visited, v = m ∨ (v, m) ∈ st.pairs) →
      (∀ v ∈ st.visited, v ∉ st.queue →
        ∀ t k, (t, k) ∈ adjacencyOf edges maxId v → k ≠ EdgeKind.MEMBER → t ≠ 0 →
          t ∈ st.visited) →
      m ∈ (bfsLoop edges maxId m fuel st).visited ∧
      (∀ v ∈ (bfsLoop edges maxId m fuel st).queue,
        v ∈ (bfsLoop edges maxId m fuel st).visited) ∧
      (∀ p : Int × Int, p ∈ (bfsLoop edges maxId m fuel st).pairs →
        p.2 = m ∧ p.1 ≠ 0 ∧ p.1 ≠ m ∧
        ReachesNonMemberNZ (adjacencyOf edges maxId) m p.1) ∧
      (∀ v ∈ (bfsLoop edges maxId m fuel st).visited, v = m ∨
        ReachesNonMemberNZ (adjacencyOf edges maxId) m v) ∧
      (∀ v ∈ (bfsLoop edges maxId m fuel st).visited, v = m ∨
        (v, m) ∈ (bfsLoop edges maxId m fuel st).pairs) ∧
      (∀ v ∈ (bfsLoop edges maxId m fuel st).visited,
        v ∉ (bfsLoop edges maxId m fuel st).queue →
        ∀ t k, (t, k) ∈ adjacencyOf edges maxId v → k ≠ EdgeKind.MEMBER → t ≠ 0 →
          t ∈ (bfsLoop edges maxId m fuel st).visited) := by
  intro fuel
  induction fuel with
  | zero =>
    intro st h1 h2 h3 h4 h5 h6
    rw [bfsLoop]
    exact ⟨h1, h2, h3, h4, h5, h6⟩
  | succ f ih =>
    intro st h1 h2 h3 h4 h5 h6
    rw [bfsLoop]
    cases hq : st.queue with
    | nil => exact ⟨h1, h2, h3, h4, h5, h6⟩
    | cons cur rest =>
      have hstep := bfsInv_step edges maxId m st cur rest hq h1 h2 h3 h4 h5 h6
      exact ih _ hstep.1 hstep.2.1 hstep.2.2.1 hstep.2.2.2.1 hstep.2.2.2.2.1
        hstep.2.2.2.2.2

theorem bfsFinal_inv (edges : List EdgeBrief) (maxId m : Int) :
    m ∈ (bfsLoop edges maxId m (bfsMeasure edges (bfsInit m)) (bfsInit m)).visited ∧
    (∀ p : Int × Int,
      p ∈ (bfsLoop edges maxId m (bfsMeasure edges (bfsInit m)) (bfsInit m)).pairs →
      p.2 = m ∧ p.1 ≠ 0 ∧ p.1 ≠ m ∧
      ReachesNonMemberNZ (adjacencyOf edges maxId) m p.1) ∧
    (∀ v ∈ (bfsLoop edges maxId m (bfsMeasure edges (bfsInit m)) (bfsInit m)).visited,
      v = m ∨
      (v, m) ∈ (bfsLoop edges maxId m (bfsMeasure edges (bfsInit m)) (bfsInit m)).pairs) ∧
    (∀ v ∈ (bfsLoop edges maxId m (bfsMeasure edges (bfsInit m)) (bfsInit m)).visited,
      ∀ t k, (t, k) ∈ adjacencyOf edges maxId v → k ≠ EdgeKind.MEMBER → t ≠ 0 →
        t ∈ (bfsLoop edges maxId m (bfsMeasure edges (bfsInit m)) (bfsInit m)).visited) := by
  have hinit1 : m ∈ (bfsInit m).visited := by simp [bfsInit]
  have hinit2 : ∀ v ∈ (bfsInit m).queue, v ∈ (bfsInit m).visited := by
    intro v hv; simpa [bfsInit] using hv
  have hinit3 : ∀ p : Int × Int, p ∈ (bfsInit m).pairs → p.2 = m ∧ p.1 ≠ 0 ∧
      p.1 ≠ m ∧ ReachesNonMemberNZ (adjacencyOf edges maxId) m p.1 := by
    intro p hp; simp [bfsInit] at hp
  have hinit4 : ∀ v ∈ (bfsInit m).visited, v = m ∨
      ReachesNonMemberNZ (adjacencyOf edges maxId) m v := by
    intro v hv; exact Or.inl (by simpa [bfsInit] using hv)
  have hinit5 : ∀ v ∈ (bfsInit m).visited, v = m ∨ (v, m) ∈ (bfsInit m).pairs := by
    intro v hv; exact Or.inl (by simpa [bfsInit] using hv)
  have hinit6 : ∀ v ∈ (bfsInit m).visited, v ∉ (bfsInit m).queue →
      ∀ t k, (t, k) ∈ adjacencyOf edges maxId v → k ≠ EdgeKind.MEMBER → t ≠ 0 →
        t ∈ (bfsInit m).visited := by
    intro v hv hvq
    simp [bfsInit] at hv hvq
    exact absurd hv hvq
  have hInv := bfsLoop_inv edges maxId m (bfsMeasure edges (bfsInit m)) (bfsInit m)
    hinit1 hinit2 hinit3 hinit4 hinit5 hinit6
  have hqe := bfsLoop_queue_empty edges maxId m (bfsMeasure edges (bfsInit m))
    (bfsInit m) (le_refl _)
  refine ⟨hInv.1, hInv.2.2.1, hInv.2.2.2.2.1, ?_⟩
  intro v hv t k hk hkm ht
  refine hInv.2.2.2.2.2 v hv ?_ t k hk hkm ht
  rw [hqe]
  exact List.not_mem_nil v

theorem mappingsForMethod_sound (edges : List EdgeBrief) (maxId m : Int) :
    ∀ p ∈ mappingsForMethod edges maxId m, p.2 = m ∧ p.1 ≠ 0 ∧ p.1 ≠ m ∧
      ReachesNonMemberNZ (adjacencyOf edges maxId) m p.1 := by
  intro p hp
  exact (bfsFinal_inv edges maxId m).2.1 p hp

theorem mappingsForMethod_complete (edges : List EdgeBrief) (maxId m u : Int)
    (hreach : ReachesNonMemberNZ (adjacencyOf edges maxId) m u) (hu : u ≠ m) :
    (u, m) ∈ mappingsForMethod edges maxId m := by
  have hInv := bfsFinal_inv edges maxId m
  have hvis : u ∈ (bfsLoop edges maxId m (bfsMeasure edges (bfsInit m))
      (bfsInit m)).visited := by
    clear hu
    induction hreach with
    | single t k hk hkm ht => exact hInv.2.2.2 m hInv.1 t k hk hkm ht
    | tail v t k hr hk hkm ht ih => exact hInv.2.2.2 v ih t k hk hkm ht
  rcases hInv.2.2.1 u hvis with hum | hpair
  · exact absurd hum hu
  · exact hpair

/-- Claim C1 (corrected).  Coverage of the test-mapping BFS: for every
discovered test method `m` and every node `u ≠ m` reachable from `m`
by a non-empty path of non-MEMBER outgoing edges all of whose targets
are non-zero, the final mapping set contains `(u, m)`; and conversely
every pair in the set is a non-self, non-zero pair produced for some
discovered method along such a path — in particular no pair is ever
produced by traversing a MEMBER edge.  (As literally stated the claim
fails when the only path to `u` passes through node 0, which the BFS
skips; see the counterexample.) -/
theorem testIndexer_coverage (edges : List EdgeBrief)
    (symbolIds testMethodIds : List Int) (m u : Int)
    (hm : m ∈ testMethodIds)
    (hreach : ReachesNonMemberNZ (adjacencyOf edges (maxIdOf edges symbolIds)) m u)
    (hu : u ≠ m) :
    (u, m) ∈ mappingSetOf edges (maxIdOf edges symbolIds) testMethodIds ∧
    ∀ p : Int × Int, p ∈ mappingSetOf edges (maxIdOf edges symbolIds) testMethodIds →
      ∃ m', m' ∈ testMethodIds ∧ p.2 = m' ∧ p.1 ≠ m' ∧ p.1 ≠ 0 ∧
        ReachesNonMemberNZ (adjacencyOf edges (maxIdOf edges symbolIds)) m' p.1 := by
  constructor
  · rw [mappingSetOf]
    rw [List.mem_flatten]
    exact ⟨mappingsForMethod edges (maxIdOf edges symbolIds) m,
      List.mem_map.mpr ⟨m, hm, rfl⟩,
      mappingsForMethod_complete edges (maxIdOf edges symbolIds) m u hreach hu⟩
  · intro p hp
    rw [mappingSetOf, List.mem_flatten] at hp
    rcases hp with ⟨l, hl, hpl⟩
    rcases List.mem_map.mp hl with ⟨m', hm', rfl⟩
    have hs := mappingsForMethod_sound edges (maxIdOf edges symbolIds) m' p hpl
    exact ⟨m', hm', hs.1, hs.2.2.1, hs.2.1, hs.2.2.2⟩

/-- Witness for the corrected claim C1 at a concrete one-edge graph. -/
theorem testIndexer_coverage_witness :
    (2, 1) ∈ mappingSetOf [⟨1, 2, EdgeKind.CALL⟩]
      (maxIdOf [⟨1, 2, EdgeKind.CALL⟩] []) [1] ∧
    ∀ p : Int × Int, p ∈ mappingSetOf [⟨1, 2, EdgeKind.CALL⟩]
        (maxIdOf [⟨1, 2, EdgeKind.CALL⟩] []) [1] →
      ∃ m', m' ∈ [(1 : Int)] ∧ p.2 = m' ∧ p.1 ≠ m' ∧ p.1 ≠ 0 ∧
        ReachesNonMemberNZ
          (adjacencyOf [⟨1, 2, EdgeKind.CALL⟩] (maxIdOf [⟨1, 2, EdgeKind.CALL⟩] []))
          m' p.1 :=
  testIndexer_coverage [⟨1, 2, EdgeKind.CALL⟩] [] [1] 1 2 (by decide)
    (ReachesNonMemberNZ.single 2 EdgeKind.CALL (by decide) (by decide) (by decide))
    (by decide)

/-- Counterexample to claim C1 as stated: in the graph with CALL edges
`1 → 0` and `0 → 2`, node 2 is reachable from method 1 by a non-empty
non-MEMBER path and is neither the method nor 0, yet the mapping set
does not contain `(2, 1)`, because the BFS skips the zero target and
never reaches node 2. -/
theorem testIndexer_coverage_counterexample :
    ReachesNonMember
      (adjacencyOf [⟨1, 0, EdgeKind.CALL⟩, ⟨0, 2, EdgeKind.CALL⟩]
        (maxIdOf [⟨1, 0, EdgeKind.CALL⟩, ⟨0, 2, EdgeKind.CALL⟩] [])) 1 2 ∧
    (2 : Int) ≠ 1 ∧ (2 : Int) ≠ 0 ∧
    (2, 1) ∉ mappingSetOf [⟨1, 0, EdgeKind.CALL⟩, ⟨0, 2, EdgeKind.CALL⟩]
      (maxIdOf [⟨1, 0, EdgeKind.CALL⟩, ⟨0, 2, EdgeKind.CALL⟩] []) [1] := by
  refine ⟨?_, by decide, by decide, by decide⟩
  exact ReachesNonMember.tail 0 2 EdgeKind.CALL
    (ReachesNonMember.single 0 EdgeKind.CALL (by decide) (by decide))
    (by decide) (by decide)

/-- Claim C9 (confirmed).  The mapping set never contains a self-pair
`(m, m)` for a discovered test method `m` (the method is pre-seeded
into the visited set), and never contains a pair whose reached-symbol
id is 0 (zero targets are skipped before insertion). -/
theorem testIndexer_pairs_shape (edges : List EdgeBrief)
    (symbolIds testMethodIds : List Int) :
    (∀ m ∈ testMethodIds,
      (m, m) ∉ mappingSetOf edges (maxIdOf edges symbolIds) testMethodIds) ∧
    ∀ p : Int × Int, p ∈ mappingSetOf edges (maxIdOf edges symbolIds) testMethodIds →
      p.1 ≠ 0 := by
  constructor
  · intro m _ hmem
    rw [mappingSetOf, List.mem_flatten] at hmem
    rcases hmem with ⟨l, hl, hpl⟩
    rcases List.mem_map.mp hl with ⟨m', _, rfl⟩
    have hs := mappingsForMethod_sound edges (maxIdOf edges symbolIds) m' (m, m) hpl
    exact hs.2.2.1 hs.1
  · intro p hp
    rw [mappingSetOf, List.mem_flatten] at hp
    rcases hp with ⟨l, hl, hpl⟩
    rcases List.mem_map.mp hl with ⟨m', _, rfl⟩
    exact (mappingsForMethod_sound edges (maxIdOf edges symbolIds) m' p hpl).2.1

/-- Witness for claim C9 at a concrete one-edge graph. -/
theorem testIndexer_pairs_shape_witness :
    (1, 1) ∉ mappingSetOf [⟨1, 2, EdgeKind.CALL⟩]
      (maxIdOf [⟨1, 2, EdgeKind.CALL⟩] []) [1] :=
  (testIndexer_pairs_shape [⟨1, 2, EdgeKind.CALL⟩] [] [1]).1 1 (by decide)

/-! ### The impact analyzer's BFS -/

theorem foldl_preserve {α : Type} (P : ImpactState → Prop)
    (f : ImpactState → α → ImpactState) (hf : ∀ st a, P st → P (f st a)) :
    ∀ (l : List α) (st : ImpactState), P st → P (l.foldl f st) := by
  intro l
  induction l with
  | nil => intro st h; exact h
  | cons a rest ih => intro st h; exact ih (f st a) (hf st a h)

theorem ensureAddTestClass_frame (st : ImpactState) (ci cid : Int)
    (fqn : List Char) (extra : List Int) :
    (ensureAddTestClass st ci cid fqn extra).queue = st.queue ∧
    (ensureAddTestClass st ci cid fqn extra).head = st.head ∧
    (ensureAddTestClass st ci cid fqn extra).visited = st.visited ∧
    (ensureAddTestClass st ci cid fqn extra).trace = st.trace := by
  rw [ensureAddTestClass]
  split_ifs <;> exact ⟨rfl, rfl, rfl, rfl⟩

theorem ensureAddTestClass_hits (st : ImpactState) (ci cid : Int)
    (fqn : List Char) (extra : List Int) :
    (ensureAddTestClass st ci cid fqn extra).hits = st.hits ∨
    (ensureAddTestClass st ci cid fqn extra).hits =
      st.hits ++ [(cid, fqn,
        if buildPathChain st.queue ci ++ extra = [] ∨
            (buildPathChain st.queue ci ++ extra).getLast? ≠ some cid then
          buildPathChain st.queue ci ++ extra ++ [cid]
        else buildPathChain st.queue ci ++ extra)] := by
  rw [ensureAddTestClass]
  split_ifs <;> first
    | exact Or.inl rfl
    | exact Or.inr rfl

theorem promoteClassFold_frame (env : ImpactEnv) (ci : Int) (pfqn : List Char)
    (s : ImpactState) (pid : Int) :
    (promoteClassFold env ci pfqn s pid).queue = s.queue ∧
    (promoteClassFold env ci pfqn s pid).head = s.head ∧
    (promoteClassFold env ci pfqn s pid).visited = s.visited ∧
    (promoteClassFold env ci pfqn s pid).trace = s.trace := by
  cases hps : getSymById env pid with
  | none => simp [promoteClassFold, hps]
  | some ps =>
    simp only [promoteClassFold, hps]
    by_cases hk : ps.symbolKind = SymbolKind.CLASS ∨ ps.symbolKind = SymbolKind.STRUCT
    · rw [if_pos hk]
      exact ensureAddTestClass_frame s ci ps.id pfqn [ps.id]
    · rw [if_neg hk]
      exact ⟨rfl, rfl, rfl, rfl⟩

theorem detectStep_frame (env : ImpactEnv) (st : ImpactState) (ci : Int)
    (sym : Symbol) (fqn : List Char) :
    (detectStep env st ci sym fqn).1.queue = st.queue ∧
    (detectStep env st ci sym fqn).1.head = st.head ∧
    (detectStep env st ci sym fqn).1.visited = st.visited ∧
    (detectStep env st ci sym fqn).1.trace = st.trace := by
  have hfold := foldl_preserve
    (fun s => s.queue = st.queue ∧ s.head = st.head ∧ s.visited = st.visited ∧
      s.trace = st.trace)
    (promoteClassFold env ci (parentFqnOf sym))
    (fun s pid hs => by
      have hfr := promoteClassFold_frame env ci (parentFqnOf sym) s pid
      exact ⟨hfr.1.trans hs.1, hfr.2.1.trans hs.2.1, hfr.2.2.1.trans hs.2.2.1,
        hfr.2.2.2.trans hs.2.2.2⟩)
  cases hlast : sym.nameHierarchy.nameElements.getLast? with
  | none =>
    simp only [detectStep, hlast]
    split_ifs <;> exact ⟨rfl, rfl, rfl, rfl⟩
  | some lastElem =>
    simp only [detectStep, hlast]
    split_ifs <;> first
      | exact ⟨rfl, rfl, rfl, rfl⟩
      | exact ensureAddTestClass_frame st ci sym.id fqn []
      | exact hfold (fqnToIds env (parentFqnOf sym)) st ⟨rfl, rfl, rfl, rfl⟩

theorem impactStep_eq_none (env : ImpactEnv) (st : ImpactState)
    (hq : st.queue[st.head]? = none) :
    impactStep env st = { st with head := st.head + 1 } := by
  unfold impactStep
  rw [hq]

theorem impactStep_eq_item (env : ImpactEnv) (st : ImpactState) (item : QueueItem)
    (hq : st.queue[st.head]? = some item) :
    impactStep env st = impactStepCore env st item := by
  unfold impactStep
  rw [hq]

theorem impactStepCore_eq_none (env : ImpactEnv) (st : ImpactState)
    (item : QueueItem) (hsym : getSymById env item.symbolId = none) :
    impactStepCore env st item = { st with head := st.head + 1 } := by
  unfold impactStepCore
  rw [hsym]

theorem impactStepCore_eq_sym (env : ImpactEnv) (st : ImpactState)
    (item : QueueItem) (sym : Symbol)
    (hsym : getSymById env item.symbolId = some sym) :
    impactStepCore env st item = impactStepSym env st item sym := by
  unfold impactStepCore
  rw [hsym]

/-- Claim C4, part 1: in METHOD mode a MEMBER or TYPE_USAGE edge is
dropped before the visited test — the state is completely unchanged. -/
theorem processEdgeImpact_method_filter (ci depth : Int) (st : ImpactState)
    (edge : Int × EdgeKind)
    (hk : edge.2 = EdgeKind.MEMBER ∨ edge.2 = EdgeKind.TYPE_USAGE) :
    processEdgeImpact ci depth (some SymbolKind.METHOD) st edge = st := by
  rw [processEdgeImpact, if_pos ⟨rfl, hk⟩]

/-- Claim C4, part 2: in any mode other than METHOD no filter is
applied — every incoming edge (and outgoing OVERRIDE edge) is
eligible: the visited test runs regardless of the edge kind and, when
fresh, marks and enqueues. -/
theorem processEdgeImpact_no_filter (ci depth : Int)
    (mode : Option SymbolKind) (st : ImpactState) (edge : Int × EdgeKind)
    (hm : mode ≠ some SymbolKind.METHOD) :
    processEdgeImpact ci depth mode st edge =
      if (edge.1, mode) ∈ st.visited then
        { st with trace := st.trace ++ [(mode, edge.2)] }
      else
        { st with
          visited := st.visited ++ [(edge.1, mode)]
          trace := st.trace ++ [(mode, edge.2)]
          queue := st.queue ++ [⟨edge.1, depth + 1, ci, mode⟩] } := by
  rw [processEdgeImpact, if_neg (fun hc => hm hc.1)]

theorem processEdgeImpact_trace_inv (ci depth : Int) (mode : Option SymbolKind)
    (st : ImpactState) (edge : Int × EdgeKind)
    (hst : ∀ e ∈ st.trace, e.1 = some SymbolKind.METHOD →
      e.2 ≠ EdgeKind.MEMBER ∧ e.2 ≠ EdgeKind.TYPE_USAGE) :
    ∀ e ∈ (processEdgeImpact ci depth mode st edge).trace,
      e.1 = some SymbolKind.METHOD →
      e.2 ≠ EdgeKind.MEMBER ∧ e.2 ≠ EdgeKind.TYPE_USAGE := by
  rw [processEdgeImpact]
  split_ifs with h1 h2
  · exact hst
  · intro e he hm
    rcases List.mem_append.mp he with hold | hnew
    · exact hst e hold hm
    · have he2 : e = (mode, edge.2) := by simpa using hnew
      subst he2
      have hmode : mode = some SymbolKind.METHOD := hm
      constructor
      · intro hc; exact h1 ⟨hmode, Or.inl hc⟩
      · intro hc; exact h1 ⟨hmode, Or.inr hc⟩
  · intro e he hm
    rcases List.mem_append.mp he with hold | hnew
    · exact hst e hold hm
    · have he2 : e = (mode, edge.2) := by simpa using hnew
      subst he2
      have hmode : mode = some SymbolKind.METHOD := hm
      constructor
      · intro hc; exact h1 ⟨hmode, Or.inl hc⟩
      · intro hc; exact h1 ⟨hmode, Or.inr hc⟩

theorem impactStep_trace_inv (env : ImpactEnv) (st : ImpactState)
    (hst : ∀ e ∈ st.trace, e.1 = some SymbolKind.METHOD →
      e.2 ≠ EdgeKind.MEMBER ∧ e.2 ≠ EdgeKind.TYPE_USAGE) :
    ∀ e ∈ (impactStep env st).trace, e.1 = some SymbolKind.METHOD →
      e.2 ≠ EdgeKind.MEMBER ∧ e.2 ≠ EdgeKind.TYPE_USAGE := by
  cases hq : st.queue[st.head]? with
  | none =>
    rw [impactStep_eq_none env st hq]
    exact hst
  | some item =>
    rw [impactStep_eq_item env st item hq]
    cases hsym : getSymById env item.symbolId with
    | none =>
      rw [impactStepCore_eq_none env st item hsym]
      exact hst
    | some sym =>
      rw [impactStepCore_eq_sym env st item sym hsym]
      rw [impactStepSym]
      split_ifs with hig hdet
      · exact hst
      · have hfr := detectStep_frame env { st with head := st.head + 1 }
          (st.head : Int) sym (toFqn sym.nameHierarchy)
        intro e he
        rw [hfr.2.2.2] at he
        exact hst e he
      · have hfr := detectStep_frame env { st with head := st.head + 1 }
          (st.head : Int) sym (toFqn sym.nameHierarchy)
        have hdetP : ∀ e ∈ (detectStep env { st with head := st.head + 1 }
            (st.head : Int) sym (toFqn sym.nameHierarchy)).1.trace,
            e.1 = some SymbolKind.METHOD →
            e.2 ≠ EdgeKind.MEMBER ∧ e.2 ≠ EdgeKind.TYPE_USAGE := by
          intro e he
          rw [hfr.2.2.2] at he
          exact hst e he
        have hin := foldl_preserve
          (fun s => ∀ e ∈ s.trace, e.1 = some SymbolKind.METHOD →
            e.2 ≠ EdgeKind.MEMBER ∧ e.2 ≠ EdgeKind.TYPE_USAGE)
          (processEdgeImpact (st.head : Int) item.depth item.modeKind)
          (fun s a h => processEdgeImpact_trace_inv (st.head : Int) item.depth
            item.modeKind s a h)
          (incomingAdjOf env sym.id) _ hdetP
        exact foldl_preserve
          (fun s => ∀ e ∈ s.trace, e.1 = some SymbolKind.METHOD →
            e.2 ≠ EdgeKind.MEMBER ∧ e.2 ≠ EdgeKind.TYPE_USAGE)
          (processEdgeImpact (st.head : Int) item.depth item.modeKind)
          (fun s a h => processEdgeImpact_trace_inv (st.head : Int) item.depth
            item.modeKind s a h)
          ((outgoingAdjOf env sym.id).filter (fun e => e.2 = EdgeKind.OVERRIDE))
          _ hin

theorem impactRun_trace_inv (env : ImpactEnv) :
    ∀ (fuel : Nat) (st : ImpactState),
      (∀ e ∈ st.trace, e.1 = some SymbolKind.METHOD →
        e.2 ≠ EdgeKind.MEMBER ∧ e.2 ≠ EdgeKind.TYPE_USAGE) →
      ∀ e ∈ (impactRun env fuel st).trace, e.1 = some SymbolKind.METHOD →
        e.2 ≠ EdgeKind.MEMBER ∧ e.2 ≠ EdgeKind.TYPE_USAGE := by
  intro fuel
  induction fuel with
  | zero => intro st h; exact h
  | succ f ih =>
    intro st h
    rw [impactRun]
    split_ifs with hc
    · exact ih (impactStep env st) (impactStep_trace_inv env st h)
    · exact h

/-- Claim C4 (confirmed).  The METHOD-mode edge filter of the
test-impact BFS: (1) from a frame dequeued in METHOD mode, a MEMBER or
TYPE_USAGE edge never changes the state — no visited-mark, no enqueue,
not even a trace entry; (2) in CLASS mode, any other kind mode, or the
"any" mode, no such filter is applied: every processed edge reaches
the visited test regardless of kind and, when fresh, is marked and
enqueued; (3) over any instrumented run from any seeding, the trace of
visited-insert attempts never contains a MEMBER or TYPE_USAGE edge
processed under METHOD mode. -/
theorem impact_method_edge_filter (env : ImpactEnv) :
    (∀ (ci depth : Int) (st : ImpactState) (edge : Int × EdgeKind),
      edge.2 = EdgeKind.MEMBER ∨ edge.2 = EdgeKind.TYPE_USAGE →
      processEdgeImpact ci depth (some SymbolKind.METHOD) st edge = st) ∧
    (∀ (ci depth : Int) (mode : Option SymbolKind) (st : ImpactState)
        (edge : Int × EdgeKind), mode ≠ some SymbolKind.METHOD →
      processEdgeImpact ci depth mode st edge =
        if (edge.1, mode) ∈ st.visited then
          { st with trace := st.trace ++ [(mode, edge.2)] }
        else
          { st with
            visited := st.visited ++ [(edge.1, mode)]
            trace := st.trace ++ [(mode, edge.2)]
            queue := st.queue ++ [⟨edge.1, depth + 1, ci, mode⟩] }) ∧
    (∀ (starts : List (Int × Option SymbolKind)) (fuel : Nat),
      ∀ e ∈ (impactRun env fuel (impactInit starts)).trace,
        e.1 = some SymbolKind.METHOD →
        e.2 ≠ EdgeKind.MEMBER ∧ e.2 ≠ EdgeKind.TYPE_USAGE) := by
  refine ⟨?_, ?_, ?_⟩
  · intro ci depth st edge hk
    exact processEdgeImpact_method_filter ci depth st edge hk
  · intro ci depth mode st edge hm
    exact processEdgeImpact_no_filter ci depth mode st edge hm
  · intro starts fuel
    apply impactRun_trace_inv
    intro e he
    simp [impactInit] at he

/-- Witness for claim C4: a concrete MEMBER edge processed in METHOD
mode leaves a concrete state unchanged, and a concrete instrumented
run never traces a METHOD-mode MEMBER or TYPE_USAGE edge. -/
theorem impact_method_edge_filter_witness :
    processEdgeImpact 0 0 (some SymbolKind.METHOD)
        (impactInit [(1, some SymbolKind.METHOD)]) (5, EdgeKind.MEMBER) =
      impactInit [(1, some SymbolKind.METHOD)] ∧
    ∀ e ∈ (impactRun
        ⟨[⟨1, ⟨[':', ':'], [⟨['A'], [], []⟩]⟩, SymbolKind.METHOD⟩],
          [⟨2, 1, EdgeKind.MEMBER⟩, ⟨3, 1, EdgeKind.CALL⟩], [], ['N', 'S']⟩ 5
        (impactInit [(1, some SymbolKind.METHOD)])).trace,
      e.1 = some SymbolKind.METHOD →
      e.2 ≠ EdgeKind.MEMBER ∧ e.2 ≠ EdgeKind.TYPE_USAGE :=
  ⟨(impact_method_edge_filter
      ⟨[⟨1, ⟨[':', ':'], [⟨['A'], [], []⟩]⟩, SymbolKind.METHOD⟩],
        [⟨2, 1, EdgeKind.MEMBER⟩, ⟨3, 1, EdgeKind.CALL⟩], [], ['N', 'S']⟩).1
      0 0 (impactInit [(1, some SymbolKind.METHOD)]) (5, EdgeKind.MEMBER)
      (Or.inl rfl),
    (impact_method_edge_filter
      ⟨[⟨1, ⟨[':', ':'], [⟨['A'], [], []⟩]⟩, SymbolKind.METHOD⟩],
        [⟨2, 1, EdgeKind.MEMBER⟩, ⟨3, 1, EdgeKind.CALL⟩], [], ['N', 'S']⟩).2.2
      [(1, some SymbolKind.METHOD)] 5⟩

/-! ### Lemmas about the exclude pruning of the impact analyzer (claim C5) -/

theorem isIgnoredSymbol_nil (sym : Symbol) : isIgnoredSymbol [] sym = false := by
  rw [isIgnoredSymbol, if_neg]
  · cases sym.nameHierarchy.nameElements.getLast? <;> simp
  · simp

theorem isIgnoredCheck_false (env : ImpactEnv) (sym : Symbol)
    (h : isIgnoredCheck env sym = false) :
    isIgnoredSymbol env.excludeSymbols sym = false := by
  rw [isIgnoredCheck] at h
  cases hemp : env.excludeSymbols with
  | nil => exact isIgnoredSymbol_nil sym
  | cons a l =>
    rw [hemp] at h
    simpa using h

theorem isIgnoredId_false_of_check (env : ImpactEnv) (id : Int) (sym : Symbol)
    (hsym : getSymById env id = some sym)
    (hig : isIgnoredCheck env sym = false) :
    isIgnoredId env id = false := by
  simp only [isIgnoredId, hsym]
  exact isIgnoredCheck_false env sym hig

theorem buildPathChainAux_neg (queue : List QueueItem) (fuel : Nat) (idx : Int)
    (h : idx < 0) : buildPathChainAux queue fuel idx = [] := by
  cases fuel with
  | zero => rfl
  | succ f =>
    rw [buildPathChainAux, if_neg]
    omega

theorem buildPathChainAux_pure (env : ImpactEnv) (queue : List QueueItem)
    (hP : ParentPure env queue) :
    ∀ (fuel : Nat) (idx : Int),
      (∀ item : QueueItem, queue[idx.toNat]? = some item →
        isIgnoredId env item.symbolId = false) →
      ∀ v ∈ buildPathChainAux queue fuel idx, isIgnoredId env v = false := by
  intro fuel
  induction fuel with
  | zero =>
    intro idx _ v hv
    simp [buildPathChainAux] at hv
  | succ f ih =>
    intro idx hcur v hv
    by_cases h0 : 0 ≤ idx
    · rw [buildPathChainAux, if_pos h0] at hv
      cases hitem : queue[idx.toNat]? with
      | none => simp only [hitem] at hv; simp at hv
      | some item =>
        simp only [hitem] at hv
        rcases List.mem_cons.mp hv with hveq | hvrest
        · rw [hveq]
          exact hcur item hitem
        · by_cases hpi : 0 ≤ item.parentIndex
          · refine ih item.parentIndex ?_ v hvrest
            intro pitem hpitem
            exact (hP idx.toNat item hitem hpi).2 pitem hpitem
          · rw [buildPathChainAux_neg queue f item.parentIndex (by omega)] at hvrest
            simp at hvrest
    · rw [buildPathChainAux, if_neg h0] at hv
      simp at hv

theorem buildPathChain_pure (env : ImpactEnv) (queue : List QueueItem)
    (hP : ParentPure env queue) (idx : Int)
    (hcur : ∀ item : QueueItem, queue[idx.toNat]? = some item →
      isIgnoredId env item.symbolId = false) :
    ∀ v ∈ buildPathChain queue idx, isIgnoredId env v = false := by
  intro v hv
  rw [buildPathChain, List.mem_reverse] at hv
  exact buildPathChainAux_pure env queue hP (queue.length + 1) idx hcur v hv

theorem ensureAddTestClass_hits_pure (env : ImpactEnv) (st : ImpactState)
    (ci cid : Int) (fqn : List Char) (extra : List Int)
    (hH : HitsPure env st)
    (hchain : ∀ v ∈ buildPathChain st.queue ci, isIgnoredId env v = false)
    (hshape : extra = [] ∨ extra = [cid]) :
    HitsPure env (ensureAddTestClass st ci cid fqn extra) := by
  intro hit hmem v hv
  rcases ensureAddTestClass_hits st ci cid fqn extra with he | he
  · rw [he] at hmem
    exact hH hit hmem v hv
  · rw [he] at hmem
    rcases List.mem_append.mp hmem with hold | hnew
    · exact hH hit hold v hv
    · have hhit : hit = (cid, fqn,
          if buildPathChain st.queue ci ++ extra = [] ∨
              (buildPathChain st.queue ci ++ extra).getLast? ≠ some cid then
            buildPathChain st.queue ci ++ extra ++ [cid]
          else buildPathChain st.queue ci ++ extra) := by
        simpa using hnew
      have hv2 : v ∈ (if buildPathChain st.queue ci ++ extra = [] ∨
          (buildPathChain st.queue ci ++ extra).getLast? ≠ some cid then
        buildPathChain st.queue ci ++ extra ++ [cid]
        else buildPathChain st.queue ci ++ extra).dropLast := by
        rw [hhit] at hv
        exact hv
      rcases hshape with hex | hex <;> rw [hex] at hv2
      · simp only [List.append_nil] at hv2
        by_cases hc : buildPathChain st.queue ci = [] ∨
            (buildPathChain st.queue ci).getLast? ≠ some cid
        · rw [if_pos hc, List.dropLast_concat] at hv2
          exact hchain v hv2
        · rw [if_neg hc] at hv2
          exact hchain v ((List.dropLast_sublist _).subset hv2)
      · have hgl : (buildPathChain st.queue ci ++ [cid]).getLast? = some cid :=
          List.getLast?_concat _
        have hc : ¬(buildPathChain st.queue ci ++ [cid] = [] ∨
            (buildPathChain st.queue ci ++ [cid]).getLast? ≠ some cid) := by
          push_neg
          exact ⟨by simp, hgl⟩
        rw [if_neg hc, List.dropLast_concat] at hv2
        exact hchain v hv2

theorem promoteClassFold_hits_pure (env : ImpactEnv) (ci : Int)
    (pfqn : List Char) (queue0 : List QueueItem)
    (hchain : ∀ v ∈ buildPathChain queue0 ci, isIgnoredId env v = false)
    (s : ImpactState) (pid : Int)
    (hs : HitsPure env s ∧ s.queue = queue0) :
    HitsPure env (promoteClassFold env ci pfqn s pid) ∧
    (promoteClassFold env ci pfqn s pid).queue = queue0 := by
  cases hps : getSymById env pid with
  | none =>
    simp only [promoteClassFold, hps]
    exact hs
  | some ps =>
    simp only [promoteClassFold, hps]
    by_cases hk : ps.symbolKind = SymbolKind.CLASS ∨ ps.symbolKind = SymbolKind.STRUCT
    · rw [if_pos hk]
      constructor
      · apply ensureAddTestClass_hits_pure env s ci ps.id pfqn [ps.id] hs.1
        · rw [hs.2]; exact hchain
        · exact Or.inr rfl
      · rw [(ensureAddTestClass_frame s ci ps.id pfqn [ps.id]).1, hs.2]
    · rw [if_neg hk]
      exact hs

theorem detectStep_hits_pure (env : ImpactEnv) (st : ImpactState) (ci : Int)
    (sym : Symbol) (fqn : List Char)
    (hH : HitsPure env st)
    (hchain : ∀ v ∈ buildPathChain st.queue ci, isIgnoredId env v = false) :
    HitsPure env (detectStep env st ci sym fqn).1 := by
  cases hlast : sym.nameHierarchy.nameElements.getLast? with
  | none =>
    simp only [detectStep, hlast]
    split_ifs <;> exact hH
  | some lastElem =>
    simp only [detectStep, hlast]
    split_ifs <;> first
      | exact hH
      | exact ensureAddTestClass_hits_pure env st ci sym.id fqn [] hH hchain
          (Or.inl rfl)
      | exact (foldl_preserve
          (fun s => HitsPure env s ∧ s.queue = st.queue)
          (promoteClassFold env ci (parentFqnOf sym))
          (fun s pid hs => promoteClassFold_hits_pure env ci (parentFqnOf sym)
            st.queue hchain s pid hs)
          (fqnToIds env (parentFqnOf sym)) st ⟨hH, rfl⟩).1

theorem parentPure_append (env : ImpactEnv) (q : List QueueItem)
    (hP : ParentPure env q) (hd : Nat) (item0 : QueueItem)
    (hhead : q[hd]? = some item0)
    (hni : isIgnoredId env item0.symbolId = false)
    (sid dep : Int) (mode : Option SymbolKind) :
    ParentPure env (q ++ [⟨sid, dep, (hd : Int), mode⟩]) := by
  have hlen : hd < q.length := by
    by_contra hge
    have hnone : q[hd]? = none := List.getElem?_eq_none (by omega)
    rw [hnone] at hhead
    exact Option.noConfusion hhead
  intro i it hit hpi
  by_cases hi : i < q.length
  · have heq1 : (q ++ [(⟨sid, dep, (hd : Int), mode⟩ : QueueItem)])[i]? = q[i]? :=
      List.getElem?_append_left hi
    rw [heq1] at hit
    obtain ⟨hb, hpp⟩ := hP i it hit hpi
    refine ⟨hb, ?_⟩
    intro pitem hpitem
    have heq2 : (q ++ [(⟨sid, dep, (hd : Int), mode⟩ :
        QueueItem)])[it.parentIndex.toNat]? = q[it.parentIndex.toNat]? :=
      List.getElem?_append_left (by omega)
    rw [heq2] at hpitem
    exact hpp pitem hpitem
  · have heq1 : (q ++ [(⟨sid, dep, (hd : Int), mode⟩ : QueueItem)])[i]? =
        [(⟨sid, dep, (hd : Int), mode⟩ : QueueItem)][i - q.length]? :=
      List.getElem?_append_right (by omega)
    rw [heq1] at hit
    have hi0 : i - q.length = 0 := by
      by_contra hne
      have hnone : [(⟨sid, dep, (hd : Int), mode⟩ :
          QueueItem)][i - q.length]? = none :=
        List.getElem?_eq_none (by simp only [List.length_singleton]; omega)
      rw [hnone] at hit
      exact Option.noConfusion hit
    rw [hi0] at hit
    have hit2 : (⟨sid, dep, (hd : Int), mode⟩ : QueueItem) = it := by
      simpa using hit
    have hpidx : it.parentIndex = (hd : Int) := by rw [← hit2]
    constructor
    · rw [hpidx]
      omega
    · intro pitem hpitem
      rw [hpidx] at hpitem
      have htn : ((hd : Int)).toNat = hd := by omega
      rw [htn] at hpitem
      have heq2 : (q ++ [(⟨sid, dep, (hd : Int), mode⟩ : QueueItem)])[hd]? =
          q[hd]? :=
        List.getElem?_append_left hlen
      rw [heq2] at hpitem
      rw [hhead] at hpitem
      have hpe : item0 = pitem := Option.some.inj hpitem
      rw [← hpe]
      exact hni

theorem processEdgeImpact_pure (env : ImpactEnv) (hd : Nat) (depth : Int)
    (mode : Option SymbolKind) (Q0 : List QueueItem) (item0 : QueueItem)
    (hhead : Q0[hd]? = some item0)
    (hni : isIgnoredId env item0.symbolId = false)
    (s : ImpactState) (edge : Int × EdgeKind)
    (hs : (∃ ext, s.queue = Q0 ++ ext) ∧ ParentPure env s.queue ∧
      HitsPure env s) :
    (∃ ext, (processEdgeImpact (hd : Int) depth mode s edge).queue =
      Q0 ++ ext) ∧
    ParentPure env (processEdgeImpact (hd : Int) depth mode s edge).queue ∧
    HitsPure env (processEdgeImpact (hd : Int) depth mode s edge) := by
  rw [processEdgeImpact]
  split_ifs with h1 h2
  · exact hs
  · exact hs
  · obtain ⟨⟨ext, hext⟩, hP, hH⟩ := hs
    have hlen : hd < Q0.length := by
      by_contra hge
      have hnone : Q0[hd]? = none := List.getElem?_eq_none (by omega)
      rw [hnone] at hhead
      exact Option.noConfusion hhead
    have hq2 : s.queue[hd]? = some item0 := by
      rw [hext]
      have heq : (Q0 ++ ext)[hd]? = Q0[hd]? := List.getElem?_append_left hlen
      rw [heq, hhead]
    refine ⟨⟨ext ++ [⟨edge.1, depth + 1, (hd : Int), mode⟩], ?_⟩, ?_, hH⟩
    · show s.queue ++ [(⟨edge.1, depth + 1, (hd : Int), mode⟩ : QueueItem)] =
        Q0 ++ (ext ++ [(⟨edge.1, depth + 1, (hd : Int), mode⟩ : QueueItem)])
      rw [hext, List.append_assoc]
    · exact parentPure_append env s.queue hP hd item0 hq2 hni edge.1
        (depth + 1) mode

theorem impactStep_pure (env : ImpactEnv) (st : ImpactState)
    (hP : ParentPure env st.queue) (hH : HitsPure env st) :
    ParentPure env (impactStep env st).queue ∧
    HitsPure env (impactStep env st) := by
  cases hq : st.queue[st.head]? with
  | none =>
    rw [impactStep_eq_none env st hq]
    exact ⟨hP, hH⟩
  | some item =>
    rw [impactStep_eq_item env st item hq]
    cases hsym : getSymById env item.symbolId with
    | none =>
      rw [impactStepCore_eq_none env st item hsym]
      exact ⟨hP, hH⟩
    | some sym =>
      rw [impactStepCore_eq_sym env st item sym hsym]
      rw [impactStepSym]
      split_ifs with hig hdet
      · exact ⟨hP, hH⟩
      · have hfr := detectStep_frame env { st with head := st.head + 1 }
          (st.head : Int) sym (toFqn sym.nameHierarchy)
        have hig' : isIgnoredCheck env sym = false := by simpa using hig
        have hni : isIgnoredId env item.symbolId = false :=
          isIgnoredId_false_of_check env item.symbolId sym hsym hig'
        have hchain : ∀ v ∈ buildPathChain st.queue (st.head : Int),
            isIgnoredId env v = false := by
          apply buildPathChain_pure env st.queue hP
          intro item' hitem'
          have htn : ((st.head : Int)).toNat = st.head := by omega
          rw [htn, hq] at hitem'
          have hpe : item = item' := Option.some.inj hitem'
          rw [← hpe]
          exact hni
        constructor
        · rw [hfr.1]
          exact hP
        · exact detectStep_hits_pure env { st with head := st.head + 1 }
            (st.head : Int) sym (toFqn sym.nameHierarchy) hH hchain
      · have hfr := detectStep_frame env { st with head := st.head + 1 }
          (st.head : Int) sym (toFqn sym.nameHierarchy)
        have hig' : isIgnoredCheck env sym = false := by simpa using hig
        have hni : isIgnoredId env item.symbolId = false :=
          isIgnoredId_false_of_check env item.symbolId sym hsym hig'
        have hchain : ∀ v ∈ buildPathChain st.queue (st.head : Int),
            isIgnoredId env v = false := by
          apply buildPathChain_pure env st.queue hP
          intro item' hitem'
          have htn : ((st.head : Int)).toNat = st.head := by omega
          rw [htn, hq] at hitem'
          have hpe : item = item' := Option.some.inj hitem'
          rw [← hpe]
          exact hni
        have hinit : (∃ ext, (detectStep env { st with head := st.head + 1 }
              (st.head : Int) sym (toFqn sym.nameHierarchy)).1.queue =
              st.queue ++ ext) ∧
            ParentPure env (detectStep env { st with head := st.head + 1 }
              (st.head : Int) sym (toFqn sym.nameHierarchy)).1.queue ∧
            HitsPure env (detectStep env { st with head := st.head + 1 }
              (st.head : Int) sym (toFqn sym.nameHierarchy)).1 := by
          refine ⟨⟨[], by rw [hfr.1]; simp⟩, ?_, ?_⟩
          · rw [hfr.1]
            exact hP
          · exact detectStep_hits_pure env { st with head := st.head + 1 }
              (st.head : Int) sym (toFqn sym.nameHierarchy) hH hchain
        have hin := foldl_preserve
          (fun s => (∃ ext, s.queue = st.queue ++ ext) ∧
            ParentPure env s.queue ∧ HitsPure env s)
          (processEdgeImpact (st.head : Int) item.depth item.modeKind)
          (fun s a hsa => processEdgeImpact_pure env st.head item.depth
            item.modeKind st.queue item hq hni s a hsa)
          (incomingAdjOf env sym.id)
          ((detectStep env { st with head := st.head + 1 } (st.head : Int) sym
            (toFqn sym.nameHierarchy)).1)
          hinit
        have hout := foldl_preserve
          (fun s => (∃ ext, s.queue = st.queue ++ ext) ∧
            ParentPure env s.queue ∧ HitsPure env s)
          (processEdgeImpact (st.head : Int) item.depth item.modeKind)
          (fun s a hsa => processEdgeImpact_pure env st.head item.depth
            item.modeKind st.queue item hq hni s a hsa)
          ((outgoingAdjOf env sym.id).filter (fun e => e.2 = EdgeKind.OVERRIDE))
          ((incomingAdjOf env sym.id).foldl
            (processEdgeImpact (st.head : Int) item.depth item.modeKind)
            ((detectStep env { st with head := st.head + 1 } (st.head : Int) sym
              (toFqn sym.nameHierarchy)).1))
          hin
        exact ⟨hout.2.1, hout.2.2⟩

theorem impactRun_pure (env : ImpactEnv) :
    ∀ (fuel : Nat) (st : ImpactState),
      ParentPure env st.queue → HitsPure env st →
      ParentPure env (impactRun env fuel st).queue ∧
      HitsPure env (impactRun env fuel st) := by
  intro fuel
  induction fuel with
  | zero => intro st hP hH; exact ⟨hP, hH⟩
  | succ f ih =>
    intro st hP hH
    rw [impactRun]
    split_ifs with hc
    · exact ih (impactStep env st)
        (impactStep_pure env st hP hH).1 (impactStep_pure env st hP hH).2
    · exact ⟨hP, hH⟩

theorem impactInit_parentPure (env : ImpactEnv)
    (starts : List (Int × Option SymbolKind)) :
    ParentPure env (impactInit starts).queue := by
  intro i item hit hpi
  exfalso
  have hmap : (starts.map (fun s =>
      (⟨s.1, 0, -1, s.2⟩ : QueueItem)))[i]? = some item := hit
  rw [List.getElem?_map] at hmap
  cases hs : starts[i]? with
  | none =>
    rw [hs] at hmap
    exact Option.noConfusion hmap
  | some s =>
    rw [hs] at hmap
    have hitem : (⟨s.1, 0, -1, s.2⟩ : QueueItem) = item := by
      simpa using hmap
    have hpidx : item.parentIndex = -1 := by rw [← hitem]
    rw [hpidx] at hpi
    omega

theorem impactInit_hitsPure (env : ImpactEnv)
    (starts : List (Int × Option SymbolKind)) :
    HitsPure env (impactInit starts) := by
  intro hit hmem
  simp [impactInit] at hmem

/-- Claim C5 (corrected).  Exclude pruning of the test-impact BFS:
(1) a dequeued node whose symbol fails the exclude check (its FQN, any
element name, or its last element name is in the non-empty exclude set)
is skipped before both detection and expansion — the loop iteration
only advances the head, leaving queue, visited, found sets, hits and
trace untouched; (2) in every recorded hit, every id of the
reconstructed parent-pointer path EXCEPT the final class id resolves to
a non-excluded symbol.  The final class id itself can be excluded: the
method-to-class promotion records the parent class without re-checking
the exclude set, which refutes the claim's "never reported as a test
hit" as literally stated. -/
theorem impact_exclude_pruning (env : ImpactEnv) :
    (∀ (st : ImpactState) (item : QueueItem) (sym : Symbol),
      st.queue[st.head]? = some item →
      getSymById env item.symbolId = some sym →
      isIgnoredCheck env sym = true →
      impactStep env st = { st with head := st.head + 1 }) ∧
    (∀ (starts : List (Int × Option SymbolKind)) (fuel : Nat),
      ∀ hit ∈ (impactRun env fuel (impactInit starts)).hits,
        ∀ v ∈ hit.2.2.dropLast, isIgnoredId env v = false) := by
  constructor
  · intro st item sym hq hsym hig
    rw [impactStep_eq_item env st item hq,
      impactStepCore_eq_sym env st item sym hsym, impactStepSym, if_pos hig]
  · intro starts fuel
    exact (impactRun_pure env fuel (impactInit starts)
      (impactInit_parentPure env starts) (impactInit_hitsPure env starts)).2

/-- Counterexample to claim C5 as stated: with class `NS::FooTest`
excluded but its method `NS::FooTest::m` not, a BFS seeded at the
method reaches the promotion branch and records the excluded class as
a test hit — hit id 2 with path [1, 2] — even though symbol 2's FQN is
in the exclude set. -/
theorem impact_exclude_pruning_counterexample :
    (impactRun excludeEnvExample 2 (impactInit [(1, none)])).hits =
      [(2, ['N', 'S', ':', ':', 'F', 'o', 'o', 'T', 'e', 's', 't'], [1, 2])] ∧
    isIgnoredId excludeEnvExample 2 = true := by
  constructor
  · decide
  · decide

/-- Witness for the corrected claim C5: dequeuing the excluded class
(id 2) only advances the head of a concrete state, and in the concrete
promotion run every path id before the final class id is
non-excluded. -/
theorem impact_exclude_pruning_witness :
    impactStep excludeEnvExample (impactInit [(2, none)]) =
      { impactInit [(2, none)] with
          head := (impactInit [(2, none)]).head + 1 } ∧
    ∀ hit ∈ (impactRun excludeEnvExample 2 (impactInit [(1, none)])).hits,
      ∀ v ∈ hit.2.2.dropLast, isIgnoredId excludeEnvExample v = false :=
  ⟨(impact_exclude_pruning excludeEnvExample).1 (impactInit [(2, none)])
      ⟨2, 0, -1, none⟩
      ⟨2, ⟨[':', ':'],
        [⟨['N', 'S'], [], []⟩, ⟨['F', 'o', 'o', 'T', 'e', 's', 't'], [], []⟩]⟩,
        SymbolKind.CLASS⟩
      (by decide) (by decide) (by decide),
    (impact_exclude_pruning excludeEnvExample).2 [(1, none)] 2⟩

end Stdb
